import Mathlib

/-!
Verification of the signature-text parser, reflection-graph walker and
block generator of the `mrc_python_tools` repository
(`src/generate_blocks/python_util.py`, `src/generate_blocks/blocks.py`).

Python strings are modelled as `List Char` (ASCII is all that occurs in the
relevant inputs); Python `str.find` (which returns -1 on failure) is modelled
with `Option Nat`; the `while` loops whose termination is itself in question
are modelled with an explicit fuel parameter, `none`/a dedicated constructor
meaning that the loop was still running when the fuel ran out.
-/

namespace MrcTools

/-- ASCII word character, modelling the regex class `\w` as it applies to the
ASCII signature strings the tool consumes. -/
def isWordChar (c : Char) : Bool := c.isAlphanum || c = '_'

/-- First (relative) index at which `pat` occurs in `s`, `none` if it does not
occur; the core of Python `str.find`. -/
def findOcc (pat : List Char) : List Char → Option Nat
  | [] => if pat.isEmpty then some 0 else none
  | c :: t => if pat.isPrefixOf (c :: t) then some 0 else (findOcc pat t).map (· + 1)

/-- Python `s.find(pat, start)`: the least absolute index `≥ start` at which
`pat` occurs in `s` (`none` models Python's -1). -/
def pyFind (s pat : List Char) (start : Nat) : Option Nat :=
  (findOcc pat (s.drop start)).map (start + ·)

/-- Python `s[a:b]` for non-negative bounds (with Python's clamping). -/
def pySlice (s : List Char) (a b : Nat) : List Char := (s.take b).drop a

/-- Python `s[a:-1]` for non-negative `a`. -/
def pySliceNegOne (s : List Char) (a : Nat) : List Char :=
  (s.take (s.length - 1)).drop a

/-- The bracket/paren stack scan of `_findEndOfToken`
(`python_util.py:45-62`): processes one character, as the Python loop body
does.  Kept as a separate recursion over the remaining text so that facts
about whole tokens can be proved by induction. -/
def feotGo (delims : List Char) : List Char → List Char → Nat → Nat
  | _, [], i => i
  | stack, c :: rest, i =>
    if c = '(' then feotGo delims (')' :: stack) rest (i + 1)
    else if c = '[' then feotGo delims (']' :: stack) rest (i + 1)
    else
      match stack with
      | top :: stack' =>
        if c = top then feotGo delims stack' rest (i + 1)
        else feotGo delims (top :: stack') rest (i + 1)
      | [] => if c ∈ delims then i else feotGo delims [] rest (i + 1)

/-- `_findEndOfToken(text, i, delimiters)` (`python_util.py:45-62`): scans from
index `i`, tracking nested `(`/`[`; a delimiter terminates the token only when
the stack is empty; returns the index where scanning stopped. -/
def findEndOfToken (text : List Char) (i : Nat) (delims : List Char) : Nat :=
  feotGo delims [] (text.drop i) i

/-- One argument-type (and optional default value) step of the scanning loop of
`processSignature` (`python_util.py:90-102`): given the index of the start of
the argument type, returns the argument type, the optional default value, and
the index `i` at which the loop body's token scanning stopped. -/
def argStep (args : List Char) (iStartOfArgType : Nat) :
    (List Char) × Option (List Char) × Nat :=
  let i := findEndOfToken args iStartOfArgType [',', ' ']
  let argType := pySlice args iStartOfArgType i
  if i + 2 < args.length && pySlice args i (i + 3) = ((" = ").toList) then
    let i2 := findEndOfToken args (i + 3) [',']
    (argType, some (pySlice args (i + 3) i2), i2)
  else
    (argType, none, i)

/-- The `", "` skip at the end of the loop body of `processSignature`
(`python_util.py:103-104`). -/
def advanceComma (args : List Char) (i : Nat) : Nat :=
  if i + 1 < args.length && pySlice args i (i + 2) = ((", ").toList) then i + 2 else i

/-- The argument-scanning `while` loop of `processSignature`
(`python_util.py:75-104`), with fuel: `none` means the loop was still running
when the fuel ran out (the loop guard is tested before fuel is consumed, so a
loop that exits immediately succeeds with any fuel).  State: current index
`i`, and the accumulated `arg_names`, `arg_types`, `arg_default_values`. -/
def processArgs (args : List Char) (fuel i : Nat)
    (ns ts : List (List Char)) (ds : List (Option (List Char))) :
    Option (List (List Char) × List (List Char) × List (Option (List Char))) :=
  if i < args.length then
    match fuel with
    | 0 => none
    | fuel' + 1 =>
      match pyFind args ((": ").toList) i with
      | none =>
        if args.getD i ' ' = '*' then
          -- the trailing variadic parameter: record it and break out of the loop
          some (ns ++ [args.drop (i + 1)], ts ++ [(("tuple").toList)], ds ++ [none])
        else
          -- Python falls through with i = -1: arg name is args[i:-1] and the
          -- argument type is scanned from absolute index -1 + 2 = 1
          let argName := pySliceNegOne args i
          let st := argStep args 1
          processArgs args fuel' (advanceComma args st.2.2)
            (ns ++ [argName]) (ts ++ [st.1]) (ds ++ [st.2.1])
      | some j =>
        let argName := pySlice args i j
        let st := argStep args (j + 2)
        processArgs args fuel' (advanceComma args st.2.2)
          (ns ++ [argName]) (ts ++ [st.1]) (ds ++ [st.2.1])
  else
    some (ns, ts, ds)

/-- Greedy last split of `rest` as `.*`, then the literal `") -> "`, then a
nonempty `.+`: the largest index `k` such that `") -> "` occurs at `k` and at
least one character follows it.  This is how the backtracking regex
`(\w+)\((.*)\) \-\> (.+)` divides the text after the opening parenthesis. -/
def lastSplitPos (s pat : List Char) : Option Nat :=
  ((List.range s.length).filter
    (fun k => pat.isPrefixOf (s.drop k) && decide (k + pat.length < s.length))).getLast?

/-- `re.fullmatch(r"(\w+)\((.*)\) \-\> (.+)", line)` (`python_util.py:41,66`):
returns the three groups (function name, argument text, return type) if the
whole line matches.  `\w+` greedily takes the maximal leading word run (it can
never match `(`), and `.*`/`.+` cannot match a newline, so a line containing a
newline never matches and the split point is the last `") -> "` occurrence
followed by at least one character. -/
def pyRegexSig (line : List Char) :
    Option ((List Char) × (List Char) × (List Char)) :=
  if line.contains '\n' then none
  else
    let name := line.takeWhile isWordChar
    if name.isEmpty then none
    else
      match line.dropWhile isWordChar with
      | c :: rest =>
        if c = '(' then
          match lastSplitPos rest (((") -> ").toList)) with
          | some k => some (name, rest.take k, rest.drop (k + 5))
          | none => none
        else none
      | [] => none

/-- Outcome of running `processSignature` with a given amount of fuel. -/
inductive SigOutcome where
  | parseError : SigOutcome
  | fuelOut : SigOutcome
  | ok (functionName : List Char) (argNames argTypes : List (List Char))
      (argDefaults : List (Option (List Char))) (returnType : List Char) : SigOutcome
deriving DecidableEq

/-- `processSignature(signature_line)` (`python_util.py:65-105`), with fuel for
its scanning loop: `parseError` models the raised exception when the outer
regex does not match; `fuelOut` means the scanning loop was still running when
the fuel ran out. -/
def processSignatureFuel (fuel : Nat) (line : List Char) : SigOutcome :=
  match pyRegexSig line with
  | none => .parseError
  | some (nm, args, ret) =>
    match processArgs args fuel 0 [] [] [] with
    | none => .fuelOut
    | some (ns, ts, ds) => .ok nm ns ts ds ret

/-! ### Alias resolution (`BlocksGenerator.varNameForType`, `blocks.py:209-224`) -/

/-- Lookup in the class-name-to-alias dict (`self._dict_class_name_to_alias`),
modelled as an association list (Python dict keys are unique; first match). -/
def aliasLookup (m : List ((List Char) × (List Char))) (t : List Char) :
    Option (List Char) :=
  (m.find? (fun p => p.1 = t)).map (·.2)

/-- The `while t in self._dict_class_name_to_alias: t = ...[t]` loop of
`varNameForType` (`blocks.py:210-211`), with fuel: `none` means the loop was
still running when the fuel ran out.  The loop guard is tested before fuel is
consumed. -/
def resolveAliasFuel (m : List ((List Char) × (List Char))) :
    Nat → List Char → Option (List Char)
  | fuel, t =>
    match aliasLookup m t with
    | none => some t
    | some t' =>
      match fuel with
      | 0 => none
      | fuel' + 1 => resolveAliasFuel m fuel' t'

/-- The chain of names visited by the alias-following loop: `aliasChain m t n`
is the name after `n` successful lookups starting from `t`, `none` once a
lookup has failed. -/
def aliasChain (m : List ((List Char) × (List Char))) (t : List Char) :
    Nat → Option (List Char)
  | 0 => some t
  | n + 1 => (aliasChain m t n).bind (aliasLookup m)

/-- `varNameForType(t)` (`blocks.py:209-224`) after the alias loop: the
variable-name decision on the resolved name. -/
def varNamePost (t : List Char) : List Char :=
  if (("tuple").toList).isPrefixOf t then ("myTuple").toList
  else if (("dict").toList).isPrefixOf t then ("myDict").toList
  else if (("list").toList).isPrefixOf t then ("myList").toList
  else if t.contains '.' then
    -- rfind: the segment after the last dot
    ("my").toList ++ (t.reverse.takeWhile (· ≠ '.')).reverse
  else []

/-- `BlocksGenerator.varNameForType(t)` (`blocks.py:209-224`) with fuel for its
alias-following loop (`none` = the loop was still running when fuel ran out):
resolves aliases, then returns `myTuple`/`myDict`/`myList` for the collection
prefixes, `my<last dotted segment>` for dotted type names, and the empty
string otherwise. -/
def varNameForTypeFuel (m : List ((List Char) × (List Char))) (fuel : Nat)
    (t : List Char) : Option (List Char) :=
  (resolveAliasFuel m fuel t).map varNamePost

/-! ### `collectAllowedTypes` (`python_util.py:433-450`)

A class is modelled by its method-resolution-order chain as the Python code
consumes it: the ordered list `inspect.getmro(c)` where each element carries
the name `blocks.getClassName` would produce for it and its
`isBuiltInClass` flag (the chain starts with the class itself). -/

/-- `dict.get` on an association list. -/
def dictGet {V : Type} (d : List ((List Char) × V)) (k : List Char) : Option V :=
  (d.find? (fun p => p.1 = k)).map (·.2)

/-- `dict.update({k: v})` on an association list (replace or append). -/
def dictPut {V : Type} : List ((List Char) × V) → List Char → V →
    List ((List Char) × V)
  | [], k, v => [(k, v)]
  | (k', v') :: rest, k, v =>
    if k' = k then (k, v) :: rest else (k', v') :: dictPut rest k v

/-- The body of the inner loop of `collectAllowedTypes`
(`python_util.py:442-449`) for one consecutive mro pair: `clsName` is
`getClassName(mro[i+1])`, `subName` is `getClassName(mro[i])`. -/
def allowedStep (d : List ((List Char) × List (List Char)))
    (clsName subName : List Char) : List ((List Char) × List (List Char)) :=
  let l0 := match dictGet d clsName with
    | some l => l
    | none => [clsName]
  let l1 := if subName ∈ l0 then l0 else l0 ++ [subName]
  dictPut d clsName l1

/-- The inner loop of `collectAllowedTypes` over the consecutive pairs of one
class's mro chain (`python_util.py:436-449`), stopping (`break`) at the first
pair whose superclass is built-in. -/
def allowedChainLoop (d : List ((List Char) × List (List Char))) :
    List ((List Char) × Bool) → List ((List Char) × List (List Char))
  | a :: b :: rest =>
    if b.2 then d
    else allowedChainLoop (allowedStep d b.1 a.1) (b :: rest)
  | _ => d

/-- `collectAllowedTypes(classes)` (`python_util.py:433-450`): folds the inner
loop over every class's mro chain. -/
def collectAllowedTypes (classes : List (List ((List Char) × Bool))) :
    List ((List Char) × List (List Char)) :=
  classes.foldl allowedChainLoop []

/-- Modelled from the spec: the subclass edges
`(ancestorClassName, directDescendantClassName)` derived from each class's
base-type chain, truncated at the first foreign (built-in) ancestor (spec
section 3, "Subclass edge"; glossary: "a direct parent→child relation in a
class's base-type chain").  An edge `(A, B)` is recorded for each consecutive
pair of a truncated chain, `B` being the more derived element. -/
def specChainEdges : List ((List Char) × Bool) → List ((List Char) × (List Char))
  | a :: b :: rest =>
    if b.2 then [] else (b.1, a.1) :: specChainEdges (b :: rest)
  | _ => []

/-- Modelled from the spec (continued): all subclass edges of a collection of
classes. -/
def specSubclassEdges (classes : List (List ((List Char) × Bool))) :
    List ((List Char) × (List Char)) :=
  classes.foldl (fun acc chain => acc ++ specChainEdges chain) []

/-! ### `getClassesFromSignatureLine` (`python_util.py:307-319`)

`getClass` (`python_util.py:20-29`) imports modules and walks attributes of
the live interpreter; it is modelled by an oracle `resolve` mapping a type
name to the class it denotes, `none` when `getClass` would raise. -/

/-- The primitive type names skipped for argument types
(`python_util.py:312`). -/
def isPrimName (t : List Char) : Bool :=
  t = (("bool").toList) || t = (("str").toList) ||
  t = (("float").toList) || t = (("int").toList)

/-- The argument-type loop of `getClassesFromSignatureLine`
(`python_util.py:311-314`): appends the resolved class of each non-primitive
argument type; a failing `getClass` raises, which the surrounding bare
`except` turns into returning the classes accumulated so far (`stop`). -/
def classesArgLoop {β : Type} (resolve : List Char → Option β) :
    List (List Char) → List β → (List β) × Bool
  | [], acc => (acc, false)
  | t :: ts, acc =>
    if isPrimName t then classesArgLoop resolve ts acc
    else
      match resolve t with
      | some c => classesArgLoop resolve ts (acc ++ [c])
      | none => (acc, true)

/-- `getClassesFromSignatureLine(signature_line)` (`python_util.py:307-319`):
parses the line, collects the classes of the non-primitive argument types and
of the return type (unless it is `None` or a primitive); the whole body is
wrapped in one `try`/bare `except: pass`, so the first failure (parse error,
loop divergence aside, or unresolvable type) returns whatever was accumulated.
`none` models the divergence of the underlying parsing loop. -/
def getClassesFromSignatureLine {β : Type} (resolve : List Char → Option β)
    (fuel : Nat) (line : List Char) : Option (List β) :=
  match processSignatureFuel fuel line with
  | .parseError => some []
  | .fuelOut => none
  | .ok _ _ ts _ ret =>
    match classesArgLoop resolve ts [] with
    | (acc, true) => some acc
    | (acc, false) =>
      if ret = (("None").toList) || isPrimName ret then some acc
      else
        match resolve ret with
        | some c => some (acc ++ [c])
        | none => some acc

/-! ### Python string helpers shared by `processFunctionDoc` and the block
generator -/

/-- The whitespace characters removed by Python `str.strip()` (ASCII). -/
def isPySpace (c : Char) : Bool :=
  c = ' ' || c = '\t' || c = '\n' || c = '\r' || c = '\x0b' || c = '\x0c'

/-- Python `s.strip()`. -/
def pyStrip (s : List Char) : List Char :=
  ((s.dropWhile isPySpace).reverse.dropWhile isPySpace).reverse

/-- Python `s.upper()` (ASCII). -/
def pyUpper (s : List Char) : List Char := s.map Char.toUpper

/-- A hexadecimal digit, as in the regex class `[0-9a-fA-F]`. -/
def isHexDigit (c : Char) : Bool :=
  c.isDigit || ('a' ≤ c && c ≤ 'f') || ('A' ≤ c && c ≤ 'F')

/-- Whether the regex `" object at 0x[0-9a-fA-F]{9}"` matches at the start of
`s`: the 13-character literal followed by exactly nine hex digits. -/
def addrMatch (s : List Char) : Bool :=
  ((" object at 0x").toList).isPrefixOf s &&
  ((s.drop 13).take 9).length = 9 && ((s.drop 13).take 9).all isHexDigit

/-- `re.sub(r" object at 0x[0-9a-fA-F]{9}", "", doc)`
(`python_util.py:269`): deletes the leftmost match, resumes scanning after
it (Python `re.sub` does not rescan the substituted text). -/
def pyAddrSubGo : Nat → List Char → List Char
  | _, [] => []
  | 0, s => s
  | fuel + 1, c :: rest =>
    if addrMatch (c :: rest) then pyAddrSubGo fuel (rest.drop 21)
    else c :: pyAddrSubGo fuel rest

/-- `re.sub` with fuel `s.length`, which is always sufficient: every step of
`pyAddrSubGo` shortens the text by at least one character, so the `0, s => s`
arm is never taken (`pyAddrSubGo_fuel` below). -/
def pyAddrSub (s : List Char) : List Char := pyAddrSubGo s.length s

theorem pyAddrSubGo_fuel :
    ∀ (fuel fuel' : Nat) (s : List Char), s.length ≤ fuel → s.length ≤ fuel' →
      pyAddrSubGo fuel s = pyAddrSubGo fuel' s := by
  intro fuel
  induction fuel with
  | zero =>
    intro fuel' s hs _
    have h0 : s = [] := List.length_eq_zero.mp (Nat.le_zero.mp hs)
    subst h0
    cases fuel' <;> rfl
  | succ fuel ih =>
    intro fuel' s hs hs'
    cases s with
    | nil => cases fuel' <;> rfl
    | cons c rest =>
      cases fuel' with
      | zero => exact absurd hs' (by simp)
      | succ fuel'' =>
        show (if addrMatch (c :: rest) then pyAddrSubGo fuel (rest.drop 21)
            else c :: pyAddrSubGo fuel rest) =
          (if addrMatch (c :: rest) then pyAddrSubGo fuel'' (rest.drop 21)
            else c :: pyAddrSubGo fuel'' rest)
        by_cases h : addrMatch (c :: rest)
        · rw [if_pos h, if_pos h]
          refine ih fuel'' (rest.drop 21) ?_ ?_
          · simp only [List.length_drop]
            simp at hs
            omega
          · simp only [List.length_drop]
            simp at hs'
            omega
        · rw [if_neg h, if_neg h]
          have hrec := ih fuel'' rest (by simp at hs; omega) (by simp at hs'; omega)
          rw [hrec]

/-- Whether `s` contains a match of the memory-address regex anywhere. -/
def containsAddr : List Char → Bool
  | [] => false
  | c :: rest => addrMatch (c :: rest) || containsAddr rest

/-! ### `processFunctionDoc` (`python_util.py:264-304`)

The Python function receives a routine object; only its `__doc__` text and its
`__name__` (used by `isOverloaded`) matter, so the model takes both as
strings. -/

/-- `_isSignature(line)` (`python_util.py:40-42`): the same full regex as
`processSignature`. -/
def isSignatureLine (line : List Char) : Bool := (pyRegexSig line).isSome

/-- `isOverloaded(object)` (`python_util.py:258-261`): the documentation
starts with `f"{name}(*args, **kwargs)\nOverloaded function.\n\n"`.  Note
that it is applied to the original documentation text, before the
memory-address substitution. -/
def isOverloadedDoc (name doc : List Char) : Bool :=
  (name ++ (("(*args, **kwargs)\nOverloaded function.\n\n").toList)).isPrefixOf doc

/-- The literal section marker `f"\n\n{n}. "`. -/
def markerStr (n : Nat) : List Char :=
  '\n' :: '\n' :: ((Nat.repr n).toList ++ ('.' :: ' ' :: []))

/-- The marker-scanning `while True` loop of `processFunctionDoc`
(`python_util.py:285-297`), with fuel (`none` = fuel ran out; the exit path is
taken without consuming fuel).  State: the next expected section number, the
scan position, and the accumulated `signatureIndices` / `commentEndIndices`. -/
def overloadScan (d : List Char) : Nat → Nat → Nat → List Nat → List Nat →
    Option (List Nat × List Nat)
  | fuel, expected, index, sigIdxs, commEnds =>
    match pyFind d (markerStr expected) index with
    | none => some (sigIdxs, commEnds ++ [d.length])
    | some idx =>
      match fuel with
      | 0 => none
      | fuel' + 1 =>
        let commEnds' := if 1 < expected then commEnds ++ [idx] else commEnds
        let index' := idx + (markerStr expected).length
        overloadScan d fuel' (expected + 1) index' (sigIdxs ++ [index']) commEnds'

/-- One round of the signature/comment extraction loop of
`processFunctionDoc` (`python_util.py:299-303`): `index` is a signature start
index, `ce` the matching comment end index; `doc.find("\n", index)` returning
-1 makes the signature `doc[index:-1]` and the comment start at absolute
index 0. -/
def overloadItem (d : List Char) (index ce : Nat) : (List Char) × (List Char) :=
  match pyFind d ('\n' :: []) index with
  | some e => (pySlice d index e, pyStrip (pySlice d (e + 1) ce))
  | none => (pySliceNegOne d index, pyStrip (pySlice d 0 ce))

/-- `processFunctionDoc(object)` (`python_util.py:264-304`): normalizes the
documentation by deleting memory-address substrings, then extracts one
signature/comment pair from a non-overloaded doc (first line + rest), or one
pair per numbered section from an overloaded doc.  The scan loop is run with
fuel `d.length + 1`, which `overloadScan_total` below proves sufficient, so
the `([], [])` fuel-out arm is unreachable. -/
def processFunctionDoc (name doc : List Char) :
    List (List Char) × List (List Char) :=
  let d := pyAddrSub doc
  if isOverloadedDoc name doc then
    match overloadScan d (d.length + 1) 1 0 [] [] with
    | none => ([], [])
    | some (sigIdxs, commEnds) =>
      let items := (sigIdxs.zip commEnds).map (fun p => overloadItem d p.1 p.2)
      (items.map (·.1), items.map (·.2))
  else
    match pyFind d ('\n' :: []) 0 with
    | some e =>
      let line := d.take e
      if isSignatureLine line then ([line], [pyStrip (d.drop (e + 1))]) else ([], [])
    | none =>
      let line := d.take (d.length - 1)
      if isSignatureLine line then ([line], [pyStrip d]) else ([], [])

/-! ### The argument-socket loop of `BlocksGenerator.generateFunctionBlock`
(`blocks.py:297-353`) -/

/-- The shadow/variable blocks that can be plugged into an argument input
socket (`valueVariableGetter`, `valueNumber`, `valueString`, `valueBoolean`,
`blocks.py:148-191`).  `valueNumber` stores `float(num_value)`; the block is
modelled by the default text it was synthesized from. -/
inductive Socket where
  | varGetter (varName : List Char) : Socket
  | numberShadow (raw : List Char) : Socket
  | textShadow (text : List Char) : Socket
  | boolShadow (value : List Char) : Socket
deriving DecidableEq

/-- The quote stripping of `valueString` (`blocks.py:170-181`). -/
def stripQuotes (s : List Char) : List Char :=
  if (s.head? = some '"' && s.getLast? = some '"') ||
     (s.head? = some '\'' && s.getLast? = some '\'') then
    pySliceNegOne s 1
  else s

/-- A run of ASCII digits with single underscores strictly between digits:
the digit-group shape accepted inside Python `int()`/`float()` literals. -/
def duGroupOk (l : List Char) : Bool :=
  !l.isEmpty && l.all (fun c => c.isDigit || c = '_') &&
  (match l.head? with | some c => c.isDigit | none => false) &&
  (match l.getLast? with | some c => c.isDigit | none => false) &&
  (findOcc (('_' :: '_' :: [])) l).isNone

/-- Modelled host-language behaviour: whether Python `int(s)` accepts the
(ASCII) text `s` — surrounding whitespace, an optional sign, then a digit
group. -/
def pyIntAccepts (s : List Char) : Bool :=
  let t := pyStrip s
  match t with
  | c :: r => if c = '+' || c = '-' then duGroupOk r else duGroupOk (c :: r)
  | [] => false

/-- Case-insensitive comparison against a lowercase word. -/
def lowerEq (s w : List Char) : Bool := s.map Char.toLower = w

/-- The mantissa shape accepted by Python `float()`: `digits`, `digits.`,
`.digits` or `digits.digits` (each group with underscores between digits). -/
def floatMantissaOk (l : List Char) : Bool :=
  if l.contains '.' then
    let ip := l.takeWhile (· ≠ '.')
    let fp := l.drop (ip.length + 1)
    !fp.contains '.' && (ip.isEmpty || duGroupOk ip) &&
      (fp.isEmpty || duGroupOk fp) && !(ip.isEmpty && fp.isEmpty)
  else duGroupOk l

/-- An optionally signed digit group (the exponent part of a float literal). -/
def signedGroupOk (l : List Char) : Bool :=
  match l with
  | c :: r => if c = '+' || c = '-' then duGroupOk r else duGroupOk (c :: r)
  | [] => false

/-- Modelled host-language behaviour: whether Python `float(s)` accepts the
(ASCII) text `s` — surrounding whitespace, an optional sign, then
`inf`/`infinity`/`nan` (case-insensitive) or a mantissa with an optional
`e`/`E` exponent. -/
def pyFloatAccepts (s : List Char) : Bool :=
  let t := pyStrip s
  let body := match t with
    | c :: r => if c = '+' || c = '-' then r else c :: r
    | [] => []
  if body.isEmpty then false
  else if lowerEq body (("inf").toList) || lowerEq body (("infinity").toList) ||
      lowerEq body (("nan").toList) then true
  else
    match body.findIdx? (fun c => c = 'e' || c = 'E') with
    | none => floatMantissaOk body
    | some k => floatMantissaOk (body.take k) && signedGroupOk (body.drop (k + 1))

/-- The per-argument input-socket decision of `generateFunctionBlock`
(`blocks.py:314-344`) for one argument: `none` means the alias loop inside
`varNameForType` was still running when the fuel ran out; otherwise the
result is the socket plugged into the argument's input (if any) together with
the number of warnings printed for this argument. -/
def argSocket (m : List ((List Char) × (List Char))) (fuel : Nat)
    (ty : List Char) (dflt : Option (List Char)) :
    Option ((Option Socket) × Nat) :=
  match varNameForTypeFuel m fuel ty with
  | none => none
  | some vn =>
    if vn ≠ [] then some (some (.varGetter vn), 0)
    else
      match dflt with
      | none => some (none, 0)
      | some d =>
        if d = [] then some (none, 0)  -- Python truthiness: an empty default text is falsy
        else if ty = (("int").toList) then
          if pyIntAccepts d then some (some (.numberShadow d), 0) else some (none, 1)
        else if ty = (("double").toList) then
          if pyFloatAccepts d then some (some (.numberShadow d), 0) else some (none, 1)
        else if ty = (("str").toList) then
          if d = (("None").toList) then some (none, 0)
          else some (some (.textShadow (stripQuotes d)), 0)
        else if ty = (("bool").toList) then
          if d = (("True").toList) || d = (("False").toList) then
            some (some (.boolShadow (pyUpper d)), 0)
          else some (none, 1)
        else some (none, 0)

/-- The `for i in range(len(arg_names))` socket loop of
`generateFunctionBlock` (`blocks.py:309-344`) from index `i` on: collects the
`(i, socket)` pairs wired into `inputs` (key `ARG{i}`) and the total number
of warnings.  Argument types and defaults are zipped (the call sites always
pass parallel lists produced by `processSignature`). -/
def genInputsGo (m : List ((List Char) × (List Char))) (fuel : Nat) :
    Nat → List ((List Char) × Option (List Char)) → List (Nat × Socket) →
    Nat → Option (List (Nat × Socket) × Nat)
  | _, [], acc, w => some (acc, w)
  | i, (ty, d) :: rest, acc, w =>
    match argSocket m fuel ty d with
    | none => none
    | some (some s, w') => genInputsGo m fuel (i + 1) rest (acc ++ [(i, s)]) (w + w')
    | some (none, w') => genInputsGo m fuel (i + 1) rest acc (w + w')

/-- The whole argument-socket loop of `generateFunctionBlock`
(`blocks.py:308-344`). -/
def genFunctionInputs (m : List ((List Char) × (List Char))) (fuel : Nat)
    (argTypes : List (List Char)) (argDefaults : List (Option (List Char))) :
    Option (List (Nat × Socket) × Nat) :=
  genInputsGo m fuel 0 (argTypes.zip argDefaults) [] 0

/-! ### `_collectModulesAndClasses` (`python_util.py:358-419`)

The live object graph is modelled by a map `G` from stable identity keys
(`id(object)` in Python) to a node description: whether the node is a module
or a class, whether it is built-in (`isBuiltInModule`/`isBuiltInClass`), and
the ordered list of identity keys of the objects the member loop recurses
into (member modules, the mro classes of member classes, classes referenced
by routine signatures, classes of data members and instance-variable types
— `python_util.py:376-419`).  The alias-dictionary updates touch neither the
visited-id list nor the module/class lists and are omitted. -/

structure PyNode where
  isModule : Bool
  isClass : Bool
  builtin : Bool
  children : List Nat
deriving DecidableEq

structure WalkState where
  modules : List Nat
  classes : List Nat
  ids : List Nat
deriving DecidableEq

/-- The recursive traversal `_collectModulesAndClasses`
(`python_util.py:358-419`) as a depth-first worklist with fuel: on entering a
node, if it was already visited it is skipped; otherwise its id is recorded,
a built-in module/class stops the recursion, a new module/class is appended
to the respective list, and the node's children are prepended to the
worklist (depth-first order). -/
def collectGo (G : Nat → PyNode) : Nat → List Nat → WalkState →
    Option WalkState
  | _, [], st => some st
  | fuel, x :: rest, st =>
    match fuel with
    | 0 => none
    | fuel' + 1 =>
      if x ∈ st.ids then collectGo G fuel' rest st
      else
        let st1 : WalkState := ⟨st.modules, st.classes, st.ids ++ [x]⟩
        let n := G x
        if n.isModule && n.builtin then collectGo G fuel' rest st1
        else
          let st2 : WalkState :=
            if n.isModule && !(x ∈ st1.modules : Bool) then
              ⟨st1.modules ++ [x], st1.classes, st1.ids⟩
            else st1
          if n.isClass && n.builtin then collectGo G fuel' rest st2
          else
            let st3 : WalkState :=
              if n.isClass && !(x ∈ st2.classes : Bool) then
                ⟨st2.modules, st2.classes ++ [x], st2.ids⟩
              else st2
            collectGo G fuel' (n.children ++ rest) st3

/-- `collectModulesAndClasses(root_modules)` (`python_util.py:422-430`):
traverses every root with one shared visited set, then sorts the class list
(`classes.sort(key=...)`, modelled by a merge sort under an arbitrary
comparator `le`, which permutes the list). -/
def collectModulesAndClasses (G : Nat → PyNode) (le : Nat → Nat → Bool)
    (fuel : Nat) (roots : List Nat) : Option (List Nat × List Nat) :=
  (collectGo G fuel roots ⟨[], [], []⟩).map
    (fun st => (st.modules, (st.classes.mergeSort le)))

/-! ### Spec-side definitions

These follow the wording of the specification (not the code) and exist to be
compared with the code-derived definitions above: the signature grammar of
spec section 4.1, and the Generator's literal-default signature formatting of
the round-trip property (spec section 8). -/

/-- Modelled from the spec: the parameter grammar of section 4.1 — a
comma-space-separated list of `name: type` or `name: type = default` with an
optional trailing variadic parameter prefixed by `*`, where `type` and
`default` spans are tokenized bracket/paren-aware exactly as described
("a delimiter terminates the current token only at depth zero").  The fuel
argument only bounds the recursion; `length + 1` is always enough since each
entry consumes characters. -/
def specParamsOkGo : Nat → List Char → Bool
  | _, [] => true
  | 0, _ => false
  | fuel + 1, s =>
    match s with
    | '*' :: rest => !rest.isEmpty && rest.all isWordChar
    | _ =>
      let nm := s.takeWhile isWordChar
      if nm.isEmpty then false
      else
        match s.drop nm.length with
        | ':' :: ' ' :: rest2 =>
          let tEnd := findEndOfToken rest2 0 [',', ' ']
          let after := rest2.drop tEnd
          if tEnd = 0 then false
          else
            match after with
            | [] => true
            | ' ' :: '=' :: ' ' :: rest3 =>
              let dEnd := findEndOfToken rest3 0 [',']
              (if dEnd = 0 then false
               else
                 match rest3.drop dEnd with
                 | [] => true
                 | ',' :: ' ' :: rest4 => specParamsOkGo fuel rest4
                 | _ => false)
            | ',' :: ' ' :: rest4 => specParamsOkGo fuel rest4
            | _ => false
        | _ => false

/-- Modelled from the spec: whether a line matches the grammar
`name(params) -> returnType` of section 4.1 (name a word, `params` per
`specParamsOkGo`, return type nonempty). -/
def specGrammarMatches (line : List Char) : Bool :=
  let nm := line.takeWhile isWordChar
  if nm.isEmpty then false
  else
    match line.drop nm.length with
    | '(' :: rest =>
      (List.range rest.length).any (fun k =>
        (((") -> ").toList)).isPrefixOf (rest.drop k) &&
        decide (k + 5 < rest.length) &&
        specParamsOkGo (rest.length + 1) (rest.take k))
    | _ => false

/-- Modelled from the spec: the claim's side condition that a `type` or
`default` span "contains no comma or space at bracket/paren depth zero",
tracking only the nesting depth of `(`/`[` against `)`/`]`. -/
def specDepthZeroClean : Nat → List Char → Bool
  | _, [] => true
  | d, c :: rest =>
    if c = '(' || c = '[' then specDepthZeroClean (d + 1) rest
    else if c = ')' || c = ']' then specDepthZeroClean (d - 1) rest
    else if (c = ',' || c = ' ') && d == 0 then false
    else specDepthZeroClean d rest

/-- The bracket/paren scan of a whole token: processes every character of the
token with the `_findEndOfToken` stack discipline and returns the final stack,
or `none` if a delimiter was encountered while the stack was empty (i.e. the
scan would have stopped inside the token). -/
def tokScan (delims : List Char) : List Char → List Char → Option (List Char)
  | stack, [] => some stack
  | stack, c :: rest =>
    if c = '(' then tokScan delims (')' :: stack) rest
    else if c = '[' then tokScan delims (']' :: stack) rest
    else
      match stack with
      | top :: s' =>
        if c = top then tokScan delims s' rest else tokScan delims (top :: s') rest
      | [] => if c ∈ delims then none else tokScan delims [] rest

/-- A token the bracket-aware scanner consumes whole: no delimiter at depth
zero, and the bracket stack is empty again at its end. -/
def tokenOk (delims t : List Char) : Bool := tokScan delims [] t = some []

/-- One formatted parameter entry, `name: type` or `name: type = default`. -/
def entryStr (e : (List Char) × (List Char) × Option (List Char)) : List Char :=
  e.1 ++ ((": ").toList) ++ e.2.1 ++
    (match e.2.2 with
     | none => []
     | some d => ((" = ").toList) ++ d)

/-- Comma-space-separated formatted parameter list. -/
def entriesStr : List ((List Char) × (List Char) × Option (List Char)) → List Char
  | [] => []
  | [e] => entryStr e
  | e :: e' :: es => entryStr e ++ ((", ").toList) ++ entriesStr (e' :: es)

/-- Modelled from the spec: the Generator's literal-default signature
formatting of the round-trip property (spec section 8),
`name(params) -> returnType`. -/
def formatSigLine (fname : List Char)
    (es : List ((List Char) × (List Char) × Option (List Char)))
    (ret : List Char) : List Char :=
  fname ++ '(' :: (entriesStr es ++ (((") -> ").toList)) ++ ret)

/-- Newline-free text (all regex pieces of the signature pattern reject a
newline). -/
def noNl (s : List Char) : Bool := !s.contains '\n'

/-- A well-formed parameter name: a nonempty word. -/
def wfName (n : List Char) : Bool := !n.isEmpty && n.all isWordChar

/-- A well-formed type or default token: newline-free, no `,`/space at
bracket depth zero, and bracket-balanced (the scan ends with an empty
stack). -/
def wfTok (t : List Char) : Bool := tokenOk [',', ' '] t && noNl t

/-- A well-formed formatted entry. -/
def wfEntry (e : (List Char) × (List Char) × Option (List Char)) : Bool :=
  wfName e.1 && wfTok e.2.1 &&
    (match e.2.2 with
     | none => true
     | some d => wfTok d)

/-- A well-formed return type: nonempty, newline-free and not containing the
separator `") -> "` (a return type containing it would change where the
greedy regex splits the line). -/
def wfRet (r : List Char) : Bool :=
  !r.isEmpty && noNl r && (findOcc (((") -> ").toList)) r).isNone

/-! ## C1: termination of the alias-resolution loop -/

theorem aliasChain_succ (m : List ((List Char) × (List Char))) (t : List Char)
    (n : Nat) : aliasChain m t (n + 1) = (aliasChain m t n).bind (aliasLookup m) :=
  rfl

theorem aliasChain_front (m : List ((List Char) × (List Char))) :
    ∀ (n : Nat) (t : List Char),
      aliasChain m t (n + 1) =
        match aliasLookup m t with
        | none => none
        | some t' => aliasChain m t' n := by
  intro n
  induction n with
  | zero =>
    intro t
    cases h : aliasLookup m t with
    | none => simp [aliasChain, h]
    | some t' => simp [aliasChain, h]
  | succ n ih =>
    intro t
    rw [aliasChain_succ, ih t]
    cases h : aliasLookup m t with
    | none => simp
    | some t' => simp [← aliasChain_succ]

theorem resolveAliasFuel_none_iff (m : List ((List Char) × (List Char))) :
    ∀ (fuel : Nat) (t : List Char),
      resolveAliasFuel m fuel t = none ↔ (aliasChain m t (fuel + 1)).isSome := by
  intro fuel
  induction fuel with
  | zero =>
    intro t
    rw [aliasChain_front]
    unfold resolveAliasFuel
    cases aliasLookup m t <;> simp [aliasChain]
  | succ fuel ih =>
    intro t
    rw [aliasChain_front]
    unfold resolveAliasFuel
    cases aliasLookup m t with
    | none => simp [aliasChain]
    | some t' => simpa using ih t'

theorem aliasChain_isSome_mono (m : List ((List Char) × (List Char)))
    (t : List Char) :
    ∀ (n k : Nat), k ≤ n → (aliasChain m t n).isSome → (aliasChain m t k).isSome := by
  intro n
  induction n with
  | zero =>
    intro k hk h
    have hk0 : k = 0 := Nat.le_zero.mp hk
    exact hk0 ▸ h
  | succ n ih =>
    intro k hk h
    rcases Nat.lt_or_ge k (n + 1) with h' | h'
    · refine ih k (by omega) ?_
      rw [aliasChain_succ] at h
      cases hc : aliasChain m t n with
      | none => rw [hc] at h; simp at h
      | some u => simp [hc]
    · have hkn : k = n + 1 := by omega
      exact hkn ▸ h

theorem aliasChain_key (m : List ((List Char) × (List Char))) (t u : List Char)
    (n : Nat) (hu : aliasChain m t n = some u)
    (hnext : (aliasChain m t (n + 1)).isSome) : u ∈ m.map Prod.fst := by
  rw [aliasChain_succ, hu] at hnext
  simp only [Option.some_bind] at hnext
  unfold aliasLookup at hnext
  cases hf : m.find? (fun p => p.1 = u) with
  | none => rw [hf] at hnext; simp at hnext
  | some p =>
    have hmem := List.mem_of_find?_eq_some hf
    have hp := List.find?_some hf
    simp only [decide_eq_true_eq] at hp
    exact hp ▸ List.mem_map_of_mem Prod.fst hmem

theorem aliasChain_shift (m : List ((List Char) × (List Char))) (t : List Char)
    (i j : Nat) (h : aliasChain m t i = aliasChain m t j) :
    ∀ s, aliasChain m t (i + s) = aliasChain m t (j + s) := by
  intro s
  induction s with
  | zero => exact h
  | succ s ih => rw [← Nat.add_assoc, ← Nat.add_assoc, aliasChain_succ,
      aliasChain_succ, ih]

theorem aliasChain_cycle_all_isSome (m : List ((List Char) × (List Char)))
    (t : List Char) (i j : Nat) (hij : i < j)
    (hs : (aliasChain m t i).isSome)
    (heq : aliasChain m t i = aliasChain m t j) :
    ∀ n, (aliasChain m t n).isSome := by
  intro n
  induction n using Nat.strong_induction_on with
  | _ n ih =>
    rcases Nat.lt_or_ge j n with hn | hn
    · have hshift := aliasChain_shift m t i j heq (n - j)
      have h1 : i + (n - j) = n - (j - i) := by omega
      have h2 : j + (n - j) = n := by omega
      rw [h1, h2] at hshift
      rw [← hshift]
      exact ih (n - (j - i)) (by omega)
    · exact aliasChain_isSome_mono m t j n hn (heq ▸ hs)

theorem resolveAlias_cycle_forces (m : List ((List Char) × (List Char)))
    (t : List Char) (h : resolveAliasFuel m (m.length + 1) t = none) :
    ∃ i j, i < j ∧ j ≤ m.length + 1 ∧ (aliasChain m t i).isSome ∧
      aliasChain m t i = aliasChain m t j := by
  have hall : ∀ k, k ≤ m.length + 2 → (aliasChain m t k).isSome := by
    intro k hk
    exact aliasChain_isSome_mono m t (m.length + 2) k hk
      ((resolveAliasFuel_none_iff m (m.length + 1) t).mp h)
  set K := (m.map Prod.fst).toFinset with hK
  have hcard : K.card < m.length + 2 := by
    have h1 : K.card ≤ (m.map Prod.fst).length := List.toFinset_card_le _
    simp only [List.length_map] at h1
    omega
  have hmaps : ∀ a : Fin (m.length + 2), a ∈ Finset.univ →
      (aliasChain m t a).getD [] ∈ K := by
    intro a _
    obtain ⟨u, hu⟩ := Option.isSome_iff_exists.mp (hall a (by omega))
    rw [hu]
    simp only [Option.getD_some, hK, List.mem_toFinset]
    exact aliasChain_key m t u a hu (hall (a + 1) (by omega))
  have hcard2 : K.card < (Finset.univ : Finset (Fin (m.length + 2))).card := by
    simpa using hcard
  obtain ⟨x, _, y, _, hxy, hfeq⟩ :=
    Finset.exists_ne_map_eq_of_card_lt_of_maps_to hcard2 hmaps
  have hchain : ∀ a : Fin (m.length + 2), ∃ u, aliasChain m t a = some u := by
    intro a
    exact Option.isSome_iff_exists.mp (hall a (by omega))
  obtain ⟨ux, hux⟩ := hchain x
  obtain ⟨uy, huy⟩ := hchain y
  have heq : aliasChain m t x = aliasChain m t y := by
    rw [hux, huy]
    rw [hux, huy] at hfeq
    simpa using hfeq
  rcases Nat.lt_or_ge x.val y.val with hlt | hge
  · exact ⟨x, y, hlt, by omega, by rw [hux]; rfl, heq⟩
  · have hlt : y.val < x.val := by
      rcases Nat.lt_or_ge y.val x.val with h' | h'
      · exact h'
      · exact absurd (Fin.ext (by omega)) hxy
    exact ⟨y, x, hlt, by omega, by rw [huy]; rfl, heq.symm⟩

/-- C1: the claim as amended.  For every alias map and type name, either the
alias loop of `varNameForType` terminates within (number of alias edges + 1)
iterations, or an alias cycle is reachable from the input name (the chain of
visited names repeats within the first `|m| + 1` steps) and the loop never
terminates, for any amount of fuel — the code has no iteration cap and raises
no `AliasCycleError`. -/
theorem varNameForType_terminates_or_cycles
    (m : List ((List Char) × (List Char))) (t : List Char) :
    (∃ r, varNameForTypeFuel m (m.length + 1) t = some r) ∨
    ((∃ i j, i < j ∧ j ≤ m.length + 1 ∧ (aliasChain m t i).isSome ∧
        aliasChain m t i = aliasChain m t j) ∧
      ∀ fuel, varNameForTypeFuel m fuel t = none) := by
  cases hres : resolveAliasFuel m (m.length + 1) t with
  | some r =>
    exact Or.inl ⟨varNamePost r, by unfold varNameForTypeFuel; rw [hres]; rfl⟩
  | none =>
    refine Or.inr ⟨resolveAlias_cycle_forces m t hres, ?_⟩
    obtain ⟨i, j, hij, _, hs, heq⟩ := resolveAlias_cycle_forces m t hres
    intro fuel
    have hnone : resolveAliasFuel m fuel t = none :=
      (resolveAliasFuel_none_iff m fuel t).mpr
        (aliasChain_cycle_all_isSome m t i j hij hs heq (fuel + 1))
    unfold varNameForTypeFuel
    rw [hnone]
    rfl

/-- C1 counterexample: on the two-edge cyclic alias map `A → B → A`, the
alias loop of `varNameForType` has not stopped after (number of distinct
alias edges + 1) iterations and produced no result at all, contradicting the
claim that it stops within that bound with an `AliasCycleError`. -/
theorem varNameForType_cycle_counterexample :
    resolveAliasFuel
      [((("A").toList), (("B").toList)), ((("B").toList), (("A").toList))] 3
      (("A").toList) = none ∧
    varNameForTypeFuel
      [((("A").toList), (("B").toList)), ((("B").toList), (("A").toList))] 3
      (("A").toList) = none := by
  constructor <;> rfl

/-! ## C9: the trailing variadic parameter -/

/-- C9: when the unscanned remainder of the params text contains no `": "`
separator and begins with `*`, the scanning loop of `processSignature`
records exactly one final parameter — name the text after the `*`, type the
literal `"tuple"`, no default value — and stops scanning. -/
theorem processArgs_variadic (args : List Char) (fuel i : Nat)
    (ns ts : List (List Char)) (ds : List (Option (List Char)))
    (h1 : i < args.length)
    (h2 : pyFind args ((": ").toList) i = none)
    (h3 : args.getD i ' ' = '*') :
    processArgs args (fuel + 1) i ns ts ds =
      some (ns ++ [args.drop (i + 1)], ts ++ [(("tuple").toList)], ds ++ [none]) := by
  unfold processArgs
  rw [if_pos h1, h2]
  simp only [h3]
  simp

/-- C9 witness: the variadic theorem at the concrete params text `"*rest"`. -/
theorem processArgs_variadic_witness :
    processArgs (("*rest").toList) 5 0 [] [] [] =
      some ([(("rest").toList)], [(("tuple").toList)], [none]) := by
  have h := processArgs_variadic (("*rest").toList) 4 0 [] [] []
    (by decide) (by decide) (by decide)
  simpa using h

/-! ## C2: failure behaviour of `processSignature` -/

theorem processArgs_bx_stuck :
    ∀ (fuel : Nat) (ns ts : List (List Char)) (ds : List (Option (List Char))),
      processArgs (("a: b,x").toList) fuel 2 ns ts ds = none := by
  intro fuel
  induction fuel with
  | zero => intro ns ts ds; rfl
  | succ fuel ih =>
    intro ns ts ds
    show processArgs (("a: b,x").toList) fuel 2 _ _ _ = none
    exact ih _ _ _

/-- C2: the claim as amended.  `processSignature` raises its parse exception
exactly when the outer regex `name(args) -> ret` fails to match the whole
line; a regex-matching line never raises, but the scanning loop does not
validate the params text against the grammar: on some grammar-violating
params it never terminates — for `"f(a: b,x) -> int"` the loop is still
running after every amount of fuel. -/
theorem processSignature_error_iff_regex_and_diverges :
    (∀ (fuel : Nat) (line : List Char),
        processSignatureFuel fuel line = SigOutcome.parseError ↔
          pyRegexSig line = none) ∧
    (∀ fuel : Nat,
        processSignatureFuel fuel (("f(a: b,x) -> int").toList) =
          SigOutcome.fuelOut) := by
  constructor
  · intro fuel line
    unfold processSignatureFuel
    cases h : pyRegexSig line with
    | none => simp
    | some g =>
      obtain ⟨nm, args, ret⟩ := g
      cases hp : processArgs args fuel 0 [] [] [] with
      | none => simp [hp]
      | some acc => simp [hp]
  · intro fuel
    have hregex : pyRegexSig (("f(a: b,x) -> int").toList) =
        some ((("f").toList), (("a: b,x").toList), (("int").toList)) := by rfl
    unfold processSignatureFuel
    rw [hregex]
    have hrun : processArgs (("a: b,x").toList) fuel 0 [] [] [] = none := by
      cases fuel with
      | zero => rfl
      | succ fuel1 =>
        show processArgs (("a: b,x").toList) fuel1 4 _ _ _ = none
        cases fuel1 with
        | zero => rfl
        | succ fuel2 =>
          show processArgs (("a: b,x").toList) fuel2 2 _ _ _ = none
          exact processArgs_bx_stuck fuel2 _ _ _
    have hrun' : processArgs ['a', ':', ' ', 'b', ',', 'x'] fuel 0 [] [] [] = none := hrun
    simp [hrun']

/-- C2 counterexample: the line `"f(x) -> int"` does not match the spec's
grammar (its params text `"x"` has no `": "`), yet `processSignature` does
not fail on it — it returns a parse with a garbled empty name and empty type
— so the code does not fail exactly on non-grammar lines. -/
theorem processSignature_nonGrammar_no_error :
    specGrammarMatches (("f(x) -> int").toList) = false ∧
    processSignatureFuel 100 (("f(x) -> int").toList) =
      SigOutcome.ok (("f").toList) [[]] [[]] [none] (("int").toList) := by
  constructor <;> rfl

/-! ## C6: `getClassesFromSignatureLine` and unresolvable type names -/

/-- Modelled from the spec: the type names referenced by a parsed signature —
the non-primitive argument types, then the return type unless it is `None` or
a primitive (the "referenced types" closure of the error-handling section). -/
def specReferencedTypes (ts : List (List Char)) (ret : List Char) :
    List (List Char) :=
  ts.filter (fun t => !isPrimName t) ++
    (if ret = (("None").toList) || isPrimName ret then [] else [ret])

theorem takeWhile_append_of_all {α : Type} (p : α → Bool) :
    ∀ (l r : List α), l.all p → (l ++ r).takeWhile p = l ++ r.takeWhile p := by
  intro l
  induction l with
  | nil => intro r _; rfl
  | cons a l ih =>
    intro r hall
    simp only [List.all_cons, Bool.and_eq_true] at hall
    simp only [List.cons_append, List.takeWhile_cons, hall.1, ih r hall.2]
    simp

theorem takeWhile_append_of_not_all {α : Type} (p : α → Bool) :
    ∀ (l r : List α), ¬ l.all p = true →
      (l ++ r).takeWhile p = l.takeWhile p := by
  intro l
  induction l with
  | nil => intro r h; exact absurd rfl h
  | cons a l ih =>
    intro r hall
    by_cases hp : p a
    · have hl : ¬ l.all p = true := by
        intro h
        exact hall (by simp [hp, h])
      simp only [List.cons_append, List.takeWhile_cons, hp, ih r hl]
    · simp only [List.cons_append, List.takeWhile_cons]
      simp [hp]

theorem takeWhile_eq_self_of_all {α : Type} (p : α → Bool) :
    ∀ l : List α, l.all p → l.takeWhile p = l := by
  intro l
  induction l with
  | nil => intro _; rfl
  | cons a l ih =>
    intro hall
    simp only [List.all_cons, Bool.and_eq_true] at hall
    simp [List.takeWhile_cons, hall.1, ih hall.2]

theorem classesArgLoop_characterization {β : Type} (resolve : List Char → Option β) :
    ∀ (ts : List (List Char)) (acc : List β),
      classesArgLoop resolve ts acc =
        (acc ++ (((ts.filter (fun t => !isPrimName t)).takeWhile
            (fun t => (resolve t).isSome)).filterMap resolve),
         !((ts.filter (fun t => !isPrimName t)).all (fun t => (resolve t).isSome))) := by
  intro ts
  induction ts with
  | nil => intro acc; simp [classesArgLoop]
  | cons t ts ih =>
    intro acc
    by_cases hp : isPrimName t
    · simp only [classesArgLoop, hp, if_true]
      rw [ih acc]
      simp [List.filter_cons, hp]
    · cases hr : resolve t with
      | none =>
        simp only [classesArgLoop, hp, if_false, hr]
        simp [List.filter_cons, hp, hr, List.takeWhile_cons]
      | some c =>
        simp only [classesArgLoop, hp, if_false, hr]
        rw [ih (acc ++ [c])]
        simp [List.filter_cons, hp, List.takeWhile_cons, hr]

/-- C6: the claim as amended.  For every parsable signature line,
`getClassesFromSignatureLine` resolves the referenced type names in order
(non-primitive argument types first, then the non-`None`, non-primitive
return type) and returns the classes of the longest prefix of that list all
of whose names resolve: the first unresolvable name aborts the collection
(its bare `except` catches the error), dropping that name and every name
after it, including the return type; the call itself never raises. -/
theorem getClasses_prefix_characterization {β : Type}
    (resolve : List Char → Option β) (fuel : Nat) (line : List Char)
    {nm ret : List Char} {ns ts : List (List Char)}
    {ds : List (Option (List Char))}
    (h : processSignatureFuel fuel line = SigOutcome.ok nm ns ts ds ret) :
    getClassesFromSignatureLine resolve fuel line =
      some (((specReferencedTypes ts ret).takeWhile
        (fun t => (resolve t).isSome)).filterMap resolve) := by
  unfold getClassesFromSignatureLine
  rw [h]
  dsimp only
  rw [classesArgLoop_characterization resolve ts []]
  unfold specReferencedTypes
  by_cases hall : (ts.filter (fun t => !isPrimName t)).all (fun t => (resolve t).isSome)
  · rw [takeWhile_append_of_all _ _ _ hall]
    simp only [hall, Bool.not_true]
    by_cases hretb : (decide (ret = (("None").toList)) || isPrimName ret) = true
    · have hretp : ret = ('N' :: 'o' :: 'n' :: 'e' :: []) ∨ isPrimName ret = true := by
        simpa using hretb
      rcases hretp with h1 | h1
      · simp [h1, takeWhile_eq_self_of_all _ _ hall]
      · simp [h1, takeWhile_eq_self_of_all _ _ hall]
    · have hretp : ¬ (ret = ('N' :: 'o' :: 'n' :: 'e' :: []) ∨ isPrimName ret = true) := by
        simpa using hretb
      have h1 : ¬ ret = ('N' :: 'o' :: 'n' :: 'e' :: []) := fun hh => hretp (Or.inl hh)
      have h2 : isPrimName ret = false := by
        cases hh : isPrimName ret
        · rfl
        · exact absurd (Or.inr hh) hretp
      cases hr : resolve ret with
      | none => simp [h1, h2, List.takeWhile_cons, hr,
          takeWhile_eq_self_of_all _ _ hall]
      | some c => simp [h1, h2, List.takeWhile_cons, hr,
          takeWhile_eq_self_of_all _ _ hall]
  · rw [takeWhile_append_of_not_all _ _ _ (by simp [hall])]
    simp only [Bool.not_eq_true] at hall
    simp [hall]

/-- A concrete resolution oracle for the C6 examples: only the names `Y` and
`Z` denote known classes. -/
def demoResolve : List Char → Option Nat := fun t =>
  if t = (("Y").toList) then some 1
  else if t = (("Z").toList) then some 2
  else none

/-- C6 witness: the characterization applied to the line `"f(a: Y) -> Z"`
under `demoResolve`. -/
theorem getClasses_prefix_characterization_witness :
    getClassesFromSignatureLine demoResolve 10 (("f(a: Y) -> Z").toList) =
      some (((specReferencedTypes [(("Y").toList)] (("Z").toList)).takeWhile
        (fun t => (demoResolve t).isSome)).filterMap demoResolve) :=
  getClasses_prefix_characterization demoResolve 10 (("f(a: Y) -> Z").toList)
    (by rfl)

/-- C6 counterexample: in `"f(a: X, b: Y) -> Z"` the first argument type `X`
does not resolve, and the call returns the empty list — the resolvable later
argument type `Y` and the resolvable return type `Z` are dropped too,
contradicting the claim that only the unresolvable name is dropped by
itself. -/
theorem getClasses_drops_after_failure :
    demoResolve (("X").toList) = none ∧
    demoResolve (("Y").toList) = some 1 ∧
    demoResolve (("Z").toList) = some 2 ∧
    getClassesFromSignatureLine demoResolve 100 (("f(a: X, b: Y) -> Z").toList) =
      some [] := by
  refine ⟨rfl, rfl, rfl, rfl⟩

/-! ## C7: literal shadow blocks for defaulted arguments -/

/-- C7: evaluation of the code at the failing input.  For an argument of
declared type `float` with textual default `"0.0"` (no alias, so
`varNameForType` returns the empty string and no variable socket is wired),
the socket loop of `generateFunctionBlock` synthesizes no literal shadow
block and prints no warning: the numeric branch tests the type name
`'double'`, which never matches the host's `float`, so a `float`-typed
default falls through all four literal branches.  The claim (and the spec)
say a numeric literal block is synthesized for `float`. -/
theorem generateFunctionBlock_float_default_dropped :
    varNameForTypeFuel [] 5 (("float").toList) = some [] ∧
    argSocket [] 5 (("float").toList) (some (("0.0").toList)) = some (none, 0) ∧
    genFunctionInputs [] 5 [(("float").toList), (("float").toList)]
      [none, some (("0.0").toList)] = some ([], 0) := by
  refine ⟨rfl, rfl, rfl⟩

/-! ## C3: `collectAllowedTypes` and subclass edges -/

theorem dictGet_cons {V : Type} (p : (List Char) × V)
    (d : List ((List Char) × V)) (k : List Char) :
    dictGet (p :: d) k = if p.1 = k then some p.2 else dictGet d k := by
  unfold dictGet
  by_cases h : p.1 = k
  · rw [List.find?_cons_of_pos _ (by simpa using h), if_pos h]
    rfl
  · rw [List.find?_cons_of_neg _ (by simpa using h), if_neg h]

theorem dictGet_dictPut_self {V : Type} :
    ∀ (d : List ((List Char) × V)) (k : List Char) (v : V),
      dictGet (dictPut d k v) k = some v := by
  intro d
  induction d with
  | nil => intro k v; simp [dictPut, dictGet_cons]
  | cons p d ih =>
    intro k v
    by_cases hk : p.1 = k
    · simp [dictPut, hk, dictGet_cons]
    · simp [dictPut, hk, dictGet_cons, ih k v]

theorem dictGet_dictPut_other {V : Type} :
    ∀ (d : List ((List Char) × V)) (k k' : List Char) (v : V), k' ≠ k →
      dictGet (dictPut d k v) k' = dictGet d k' := by
  intro d
  induction d with
  | nil =>
    intro k k' v hk
    simp [dictGet, dictPut, List.find?, Ne.symm hk]
  | cons p d ih =>
    intro k k' v hk
    by_cases hp : p.1 = k
    · have h2 : ¬ (p.1 = k') := by rw [hp]; exact Ne.symm hk
      simp [dictPut, hp, dictGet_cons, Ne.symm hk, h2]
    · by_cases hpk : p.1 = k'
      · simp [dictPut, hp, dictGet_cons, hpk, hk]
      · simp [dictPut, hp, dictGet_cons, hpk, hk, ih k k' v hk]

theorem allowedStep_mono (d : List ((List Char) × List (List Char)))
    (clsName subName : List Char) (k : List Char) (l : List (List Char))
    (h : dictGet d k = some l) :
    ∃ l', dictGet (allowedStep d clsName subName) k = some l' ∧ l ⊆ l' := by
  by_cases hk : k = clsName
  · subst hk
    unfold allowedStep
    rw [h]
    refine ⟨_, dictGet_dictPut_self d k _, ?_⟩
    by_cases hs : subName ∈ l
    · simp [hs]
    · simp only [hs, if_false]
      exact List.subset_append_left l [subName]
  · unfold allowedStep
    refine ⟨l, ?_, List.Subset.refl l⟩
    rw [dictGet_dictPut_other _ clsName k _ hk]
    exact h

theorem allowedChainLoop_mono :
    ∀ (chain : List ((List Char) × Bool))
      (d : List ((List Char) × List (List Char))) (k : List Char)
      (l : List (List Char)), dictGet d k = some l →
      ∃ l', dictGet (allowedChainLoop d chain) k = some l' ∧ l ⊆ l' := by
  intro chain
  induction chain with
  | nil => intro d k l h; exact ⟨l, h, List.Subset.refl l⟩
  | cons a chain ih =>
    intro d k l h
    cases chain with
    | nil => exact ⟨l, h, List.Subset.refl l⟩
    | cons b rest =>
      show ∃ l', dictGet (if b.2 then d else
        allowedChainLoop (allowedStep d b.1 a.1) (b :: rest)) k = some l' ∧ l ⊆ l'
      by_cases hb : b.2
      · rw [if_pos hb]; exact ⟨l, h, List.Subset.refl l⟩
      · rw [if_neg hb]
        obtain ⟨l1, h1, hsub1⟩ := allowedStep_mono d b.1 a.1 k l h
        obtain ⟨l2, h2, hsub2⟩ := ih (allowedStep d b.1 a.1) k l1 h1
        exact ⟨l2, h2, hsub1.trans hsub2⟩

/-- The invariant of the allowed-types dictionary: every binding's list
contains its own key (established at creation as `[class_name]` and preserved
by appends). -/
def AllowedInv (d : List ((List Char) × List (List Char))) : Prop :=
  ∀ k l, dictGet d k = some l → k ∈ l

theorem allowedStep_inv (d : List ((List Char) × List (List Char)))
    (clsName subName : List Char) (hinv : AllowedInv d) :
    AllowedInv (allowedStep d clsName subName) := by
  intro k l h
  by_cases hk : k = clsName
  · subst hk
    unfold allowedStep at h
    rw [dictGet_dictPut_self] at h
    cases hg : dictGet d k with
    | none =>
      rw [hg] at h
      by_cases hs : subName ∈ [k]
      · rw [if_pos hs] at h
        injection h with h
        subst h
        exact List.mem_singleton_self k
      · rw [if_neg hs] at h
        injection h with h
        subst h
        exact List.mem_append_left [subName] (List.mem_singleton_self k)
    | some l0 =>
      rw [hg] at h
      have hmem := hinv k l0 hg
      by_cases hs : subName ∈ l0
      · rw [if_pos hs] at h
        injection h with h
        subst h
        exact hmem
      · rw [if_neg hs] at h
        injection h with h
        subst h
        exact List.mem_append_left [subName] hmem
  · unfold allowedStep at h
    rw [dictGet_dictPut_other _ clsName k _ hk] at h
    exact hinv k l h

theorem allowedChainLoop_inv :
    ∀ (chain : List ((List Char) × Bool))
      (d : List ((List Char) × List (List Char))), AllowedInv d →
      AllowedInv (allowedChainLoop d chain) := by
  intro chain
  induction chain with
  | nil => intro d h; exact h
  | cons a chain ih =>
    intro d h
    cases chain with
    | nil => exact h
    | cons b rest =>
      show AllowedInv (if b.2 then d else
        allowedChainLoop (allowedStep d b.1 a.1) (b :: rest))
      by_cases hb : b.2
      · rw [if_pos hb]; exact h
      · rw [if_neg hb]
        exact ih (allowedStep d b.1 a.1) (allowedStep_inv d b.1 a.1 h)

theorem allowedStep_establish (d : List ((List Char) × List (List Char)))
    (clsName subName : List Char) (hinv : AllowedInv d) :
    ∃ l, dictGet (allowedStep d clsName subName) clsName = some l ∧
      clsName ∈ l ∧ subName ∈ l := by
  unfold allowedStep
  cases hg : dictGet d clsName with
  | none =>
    dsimp only
    refine ⟨_, dictGet_dictPut_self d clsName _, ?_⟩
    by_cases hs : subName ∈ [clsName]
    · rw [if_pos hs]
      rw [List.mem_singleton] at hs
      subst hs
      exact ⟨List.mem_singleton_self _, List.mem_singleton_self _⟩
    · rw [if_neg hs]
      constructor
      · exact List.mem_append_left [subName] (List.mem_singleton_self clsName)
      · exact List.mem_append_right [clsName] (List.mem_singleton_self subName)
  | some l0 =>
    dsimp only
    refine ⟨_, dictGet_dictPut_self d clsName _, ?_⟩
    have hmem := hinv clsName l0 hg
    by_cases hs : subName ∈ l0
    · rw [if_pos hs]
      exact ⟨hmem, hs⟩
    · rw [if_neg hs]
      exact ⟨List.mem_append_left [subName] hmem,
        List.mem_append_right l0 (List.mem_singleton_self subName)⟩

theorem allowedChainLoop_establish :
    ∀ (k : Nat) (chain : List ((List Char) × Bool))
      (d : List ((List Char) × List (List Char)))
      (aName bName : List Char) (aB : Bool), AllowedInv d →
      chain[k]? = some (aName, aB) →
      chain[k + 1]? = some (bName, false) →
      (∀ j e, 1 ≤ j → j ≤ k + 1 → chain[j]? = some e → e.2 = false) →
      ∃ l, dictGet (allowedChainLoop d chain) bName = some l ∧
        bName ∈ l ∧ aName ∈ l := by
  intro k
  induction k with
  | zero =>
    intro chain d aName bName aB hinv ha hb _
    cases chain with
    | nil => simp at ha
    | cons a chain' =>
      cases chain' with
      | nil => simp at hb
      | cons b rest =>
        simp only [List.getElem?_cons_zero, Option.some.injEq] at ha
        have hb' : b = (bName, false) := by
          simpa using hb
        subst hb'
        show ∃ l, dictGet (if (false : Bool) then d else
          allowedChainLoop (allowedStep d bName a.1) ((bName, false) :: rest))
            bName = some l ∧ bName ∈ l ∧ aName ∈ l
        rw [if_neg (by simp)]
        obtain ⟨l1, h1, hcl, hsb⟩ := allowedStep_establish d bName a.1 hinv
        obtain ⟨l2, h2, hsub⟩ :=
          allowedChainLoop_mono ((bName, false) :: rest)
            (allowedStep d bName a.1) bName l1 h1
        have ha1 : a.1 = aName := by rw [ha]
        exact ⟨l2, h2, hsub hcl, ha1 ▸ hsub hsb⟩
  | succ k ih =>
    intro chain d aName bName aB hinv ha hb hnb
    cases chain with
    | nil => simp at ha
    | cons c0 chain' =>
      cases chain' with
      | nil => simp at ha
      | cons c1 rest =>
        have hc1 : c1.2 = false := by
          refine hnb 1 c1 (by omega) (by omega) ?_
          simp
        show ∃ l, dictGet (if c1.2 then d else
          allowedChainLoop (allowedStep d c1.1 c0.1) (c1 :: rest)) bName =
            some l ∧ bName ∈ l ∧ aName ∈ l
        rw [if_neg (by rw [hc1]; simp)]
        refine ih (c1 :: rest) (allowedStep d c1.1 c0.1) aName bName aB
          (allowedStep_inv d c1.1 c0.1 hinv) ?_ ?_ ?_
        · simpa using ha
        · simpa using hb
        · intro j e hj1 hj2 hje
          refine hnb (j + 1) e (by omega) (by omega) ?_
          simpa using hje

theorem foldl_allowedChainLoop_mono :
    ∀ (classes : List (List ((List Char) × Bool)))
      (d : List ((List Char) × List (List Char))) (k : List Char)
      (l : List (List Char)), dictGet d k = some l →
      ∃ l', dictGet (classes.foldl allowedChainLoop d) k = some l' ∧ l ⊆ l' := by
  intro classes
  induction classes with
  | nil => intro d k l h; exact ⟨l, h, List.Subset.refl l⟩
  | cons c classes ih =>
    intro d k l h
    obtain ⟨l1, h1, hs1⟩ := allowedChainLoop_mono c d k l h
    obtain ⟨l2, h2, hs2⟩ := ih (allowedChainLoop d c) k l1 h1
    exact ⟨l2, h2, hs1.trans hs2⟩

theorem foldl_allowedChainLoop_inv :
    ∀ (classes : List (List ((List Char) × Bool)))
      (d : List ((List Char) × List (List Char))), AllowedInv d →
      AllowedInv (classes.foldl allowedChainLoop d) := by
  intro classes
  induction classes with
  | nil => intro d h; exact h
  | cons c classes ih =>
    intro d h
    exact ih (allowedChainLoop d c) (allowedChainLoop_inv c d h)

theorem foldl_allowedChainLoop_establish :
    ∀ (classes : List (List ((List Char) × Bool)))
      (d : List ((List Char) × List (List Char)))
      (chain : List ((List Char) × Bool)) (k : Nat)
      (aName bName : List Char) (aB : Bool), AllowedInv d →
      chain ∈ classes →
      chain[k]? = some (aName, aB) →
      chain[k + 1]? = some (bName, false) →
      (∀ j e, 1 ≤ j → j ≤ k + 1 → chain[j]? = some e → e.2 = false) →
      ∃ l, dictGet (classes.foldl allowedChainLoop d) bName = some l ∧
        bName ∈ l ∧ aName ∈ l := by
  intro classes
  induction classes with
  | nil =>
    intro d chain k aName bName aB _ hmem _ _ _
    simp at hmem
  | cons c classes ih =>
    intro d chain k aName bName aB hinv hmem ha hb hnb
    rcases List.mem_cons.mp hmem with hc | hc
    · subst hc
      obtain ⟨l1, h1, hb1, ha1⟩ :=
        allowedChainLoop_establish k chain d aName bName aB hinv ha hb hnb
      obtain ⟨l2, h2, hsub⟩ :=
        foldl_allowedChainLoop_mono classes (allowedChainLoop d chain) bName l1 h1
      exact ⟨l2, h2, hsub hb1, hsub ha1⟩
    · exact ih (allowedChainLoop d c) chain k aName bName aB
        (allowedChainLoop_inv c d hinv) hc ha hb hnb

/-- C3: the claim as amended.  `collectAllowedTypes` records only the
consecutive pairs of each collected class's truncated linearization chain:
whenever a collected class's chain has `A` at position `k+1` (non-built-in,
with every chain element from position 1 through `k+1` non-built-in) directly
after `B` at position `k`, the mapping sends `A`'s name to a list containing
both `A`'s own name and `B`'s name.  Transitive descendants (e.g. a
grandchild of `A`) are not included in general. -/
theorem collectAllowedTypes_direct_pairs
    (classes : List (List ((List Char) × Bool)))
    (chain : List ((List Char) × Bool)) (k : Nat)
    (aName bName : List Char) (aB : Bool)
    (hmem : chain ∈ classes)
    (ha : chain[k]? = some (aName, aB))
    (hb : chain[k + 1]? = some (bName, false))
    (hnb : ∀ j e, 1 ≤ j → j ≤ k + 1 → chain[j]? = some e → e.2 = false) :
    ∃ l, dictGet (collectAllowedTypes classes) bName = some l ∧
      bName ∈ l ∧ aName ∈ l :=
  foldl_allowedChainLoop_establish classes [] chain k aName bName aB
    (fun k l h => by simp [dictGet] at h) hmem ha hb hnb

/-- C3 witness: the two-class chain of the spec's Scenario 2 — `Drive`
deriving from `MotorController` deriving from the built-in `object`; the
direct pair puts both names into `MotorController`'s allowed list. -/
theorem collectAllowedTypes_direct_pairs_witness :
    ∃ l, dictGet (collectAllowedTypes
        [[((("Drive").toList), false), ((("MotorController").toList), false),
          ((("object").toList), true)]]) (("MotorController").toList) = some l ∧
      (("MotorController").toList) ∈ l ∧ (("Drive").toList) ∈ l :=
  collectAllowedTypes_direct_pairs
    [[((("Drive").toList), false), ((("MotorController").toList), false),
      ((("object").toList), true)]]
    [((("Drive").toList), false), ((("MotorController").toList), false),
      ((("object").toList), true)] 0
    (("Drive").toList) (("MotorController").toList) false
    (by simp) (by rfl) (by rfl)
    (by intro j e hj1 hj2 hje
        have hj : j = 1 := by omega
        subst hj
        simp at hje
        rw [hje.symm])

/-- C3 counterexample: in the three-class chain `C <- B <- A` (each class
collected, `object` built-in), `C` is a transitive descendant of `A` along
the derived subclass edges `(A, B)` and `(B, C)`, yet the allowed-types list
of `A` is exactly `[A, B]` — the grandchild `C` is missing, contradicting the
claim that every descendant is included. -/
theorem collectAllowedTypes_misses_grandchild :
    ((("A").toList), (("B").toList)) ∈ specSubclassEdges
      [[((("C").toList), false), ((("B").toList), false), ((("A").toList), false),
        ((("object").toList), true)],
       [((("B").toList), false), ((("A").toList), false), ((("object").toList), true)],
       [((("A").toList), false), ((("object").toList), true)]] ∧
    ((("B").toList), (("C").toList)) ∈ specSubclassEdges
      [[((("C").toList), false), ((("B").toList), false), ((("A").toList), false),
        ((("object").toList), true)],
       [((("B").toList), false), ((("A").toList), false), ((("object").toList), true)],
       [((("A").toList), false), ((("object").toList), true)]] ∧
    dictGet (collectAllowedTypes
      [[((("C").toList), false), ((("B").toList), false), ((("A").toList), false),
        ((("object").toList), true)],
       [((("B").toList), false), ((("A").toList), false), ((("object").toList), true)],
       [((("A").toList), false), ((("object").toList), true)]]) (("A").toList) =
      some [(("A").toList), (("B").toList)] ∧
    ¬ (("C").toList) ∈ [(("A").toList), (("B").toList)] := by
  refine ⟨by decide, by decide, by decide, by decide⟩

/-! ## C8: identity-based deduplication of the traversal -/

/-- The dedup invariant of the traversal state: no duplicate identities in
the visited list, and no duplicate entries in the module and class lists. -/
def WalkInv (st : WalkState) : Prop :=
  st.ids.Nodup ∧ st.modules.Nodup ∧ st.classes.Nodup

theorem collectGo_inv (G : Nat → PyNode) :
    ∀ (fuel : Nat) (work : List Nat) (st st' : WalkState), WalkInv st →
      collectGo G fuel work st = some st' → WalkInv st' := by
  intro fuel
  induction fuel with
  | zero =>
    intro work st st' hinv h
    cases work with
    | nil =>
      injection h with h
      exact h ▸ hinv
    | cons x rest => exact absurd h (by simp [collectGo])
  | succ fuel ih =>
    intro work st st' hinv h
    cases work with
    | nil =>
      injection h with h
      exact h ▸ hinv
    | cons x rest =>
      by_cases hx : x ∈ st.ids
      · rw [show collectGo G (fuel + 1) (x :: rest) st =
            collectGo G fuel rest st by simp [collectGo, hx]] at h
        exact ih rest st st' hinv h
      · have hids : (st.ids ++ [x]).Nodup := by
          rw [List.nodup_append]
          exact ⟨hinv.1, List.nodup_singleton x, by simpa using hx⟩
        rw [show collectGo G (fuel + 1) (x :: rest) st =
            (let st1 : WalkState := ⟨st.modules, st.classes, st.ids ++ [x]⟩
             let n := G x
             if n.isModule && n.builtin then collectGo G fuel rest st1
             else
               let st2 : WalkState :=
                 if n.isModule && !(x ∈ st1.modules : Bool) then
                   ⟨st1.modules ++ [x], st1.classes, st1.ids⟩
                 else st1
               if n.isClass && n.builtin then collectGo G fuel rest st2
               else
                 let st3 : WalkState :=
                   if n.isClass && !(x ∈ st2.classes : Bool) then
                     ⟨st2.modules, st2.classes ++ [x], st2.ids⟩
                   else st2
                 collectGo G fuel (n.children ++ rest) st3)
          by simp [collectGo, hx]] at h
        dsimp only at h
        set st1 : WalkState := ⟨st.modules, st.classes, st.ids ++ [x]⟩ with hst1
        have hinv1 : WalkInv st1 := ⟨hids, hinv.2.1, hinv.2.2⟩
        by_cases hmb : (G x).isModule && (G x).builtin
        · rw [if_pos hmb] at h
          exact ih rest st1 st' hinv1 h
        · rw [if_neg hmb] at h
          by_cases hm2 : (G x).isModule && !(x ∈ st1.modules : Bool)
          · rw [if_pos hm2] at h
            have hmods : (st1.modules ++ [x]).Nodup := by
              rw [List.nodup_append]
              refine ⟨hinv1.2.1, List.nodup_singleton x, ?_⟩
              simp only [List.disjoint_singleton]
              simp only [Bool.and_eq_true, Bool.not_eq_true',
                decide_eq_false_iff_not] at hm2
              exact hm2.2
            set st2 : WalkState := ⟨st1.modules ++ [x], st1.classes, st1.ids⟩ with hst2
            have hinv2 : WalkInv st2 := ⟨hinv1.1, hmods, hinv1.2.2⟩
            by_cases hcb : (G x).isClass && (G x).builtin
            · rw [if_pos hcb] at h
              exact ih rest st2 st' hinv2 h
            · rw [if_neg hcb] at h
              by_cases hc2 : (G x).isClass && !(x ∈ st2.classes : Bool)
              · rw [if_pos hc2] at h
                have hcls : (st2.classes ++ [x]).Nodup := by
                  rw [List.nodup_append]
                  refine ⟨hinv2.2.2, List.nodup_singleton x, ?_⟩
                  simp only [List.disjoint_singleton]
                  simp only [Bool.and_eq_true, Bool.not_eq_true',
                    decide_eq_false_iff_not] at hc2
                  exact hc2.2
                exact ih ((G x).children ++ rest)
                  ⟨st2.modules, st2.classes ++ [x], st2.ids⟩ st'
                  ⟨hinv2.1, hinv2.2.1, hcls⟩ h
              · rw [if_neg hc2] at h
                exact ih _ _ st' hinv2 h
          · rw [if_neg hm2] at h
            by_cases hcb : (G x).isClass && (G x).builtin
            · rw [if_pos hcb] at h
              exact ih rest st1 st' hinv1 h
            · rw [if_neg hcb] at h
              by_cases hc2 : (G x).isClass && !(x ∈ st1.classes : Bool)
              · rw [if_pos hc2] at h
                have hcls : (st1.classes ++ [x]).Nodup := by
                  rw [List.nodup_append]
                  refine ⟨hinv1.2.2, List.nodup_singleton x, ?_⟩
                  simp only [List.disjoint_singleton]
                  simp only [Bool.and_eq_true, Bool.not_eq_true',
                    decide_eq_false_iff_not] at hc2
                  exact hc2.2
                exact ih ((G x).children ++ rest)
                  ⟨st1.modules, st1.classes ++ [x], st1.ids⟩ st'
                  ⟨hinv1.1, hinv1.2.1, hcls⟩ h
              · rw [if_neg hc2] at h
                exact ih _ _ st' hinv1 h

/-- C8: the traversal recurses into each identity at most once across all
roots (the visited identity list it builds has no duplicates), and the module
and class lists of both the raw traversal state and the final result of
`collectModulesAndClasses` contain no duplicate entries, so the number of
collected entries equals the number of distinct collected identities. -/
theorem collectModulesAndClasses_dedup (G : Nat → PyNode)
    (le : Nat → Nat → Bool) (fuel : Nat) (roots : List Nat) (st' : WalkState)
    (mods cls : List Nat)
    (hgo : collectGo G fuel roots ⟨[], [], []⟩ = some st')
    (hcol : collectModulesAndClasses G le fuel roots = some (mods, cls)) :
    st'.ids.Nodup ∧ st'.modules.Nodup ∧ st'.classes.Nodup ∧
      mods.Nodup ∧ cls.Nodup := by
  have hinv : WalkInv st' :=
    collectGo_inv G fuel roots ⟨[], [], []⟩ st'
      ⟨List.nodup_nil, List.nodup_nil, List.nodup_nil⟩ hgo
  unfold collectModulesAndClasses at hcol
  rw [hgo] at hcol
  simp only [Option.map_some'] at hcol
  injection hcol with hcol
  have hmods : mods = st'.modules := by
    have := congrArg Prod.fst hcol
    simpa using this.symm
  have hcls : cls = st'.classes.mergeSort le := by
    have := congrArg Prod.snd hcol
    simpa using this.symm
  refine ⟨hinv.1, hinv.2.1, hinv.2.2, hmods ▸ hinv.2.1, ?_⟩
  rw [hcls]
  exact ((List.mergeSort_perm st'.classes le).symm).nodup hinv.2.2

/-- The shared-subgraph example: two root modules (identities 0 and 1) both
contain the class with identity 2. -/
def demoGraph : Nat → PyNode := fun n =>
  if n = 0 then ⟨true, false, false, [2]⟩
  else if n = 1 then ⟨true, false, false, [2]⟩
  else if n = 2 then ⟨false, true, false, []⟩
  else ⟨false, false, false, []⟩

/-- C8 witness: the dedup theorem on the shared-subgraph example — the class
reachable from both roots is visited once and collected once. -/
theorem collectModulesAndClasses_dedup_witness :
    (⟨[0, 1], [2], [0, 2, 1]⟩ : WalkState).ids.Nodup ∧
    (⟨[0, 1], [2], [0, 2, 1]⟩ : WalkState).modules.Nodup ∧
    (⟨[0, 1], [2], [0, 2, 1]⟩ : WalkState).classes.Nodup ∧
    ([0, 1] : List Nat).Nodup ∧ ([2] : List Nat).Nodup :=
  collectModulesAndClasses_dedup demoGraph (fun a b => decide (a ≤ b)) 10
    [0, 1] ⟨[0, 1], [2], [0, 2, 1]⟩ [0, 1] [2] (by rfl)
    (by unfold collectModulesAndClasses
        rw [show collectGo demoGraph 10 [0, 1] ⟨[], [], []⟩ =
          some ⟨[0, 1], [2], [0, 2, 1]⟩ from rfl]
        simp)

/-! ## C10: the memory-address normalization -/

theorem take_isPrefix {α : Type} (n : Nat) (l : List α) : l.take n <+: l :=
  List.take_prefix n l

theorem drop_isSuffix {α : Type} (n : Nat) (l : List α) : l.drop n <:+ l :=
  List.drop_suffix n l

theorem dropWhile_isSuffix {α : Type} (p : α → Bool) (l : List α) :
    l.dropWhile p <:+ l :=
  List.dropWhile_suffix p

theorem pySlice_isInfix (s : List Char) (a b : Nat) : pySlice s a b <:+: s :=
  (drop_isSuffix a (s.take b)).isInfix.trans (take_isPrefix b s).isInfix

theorem pySliceNegOne_isInfix (s : List Char) (a : Nat) :
    pySliceNegOne s a <:+: s :=
  (drop_isSuffix a (s.take (s.length - 1))).isInfix.trans
    (take_isPrefix (s.length - 1) s).isInfix

theorem pyStrip_isInfix (s : List Char) : pyStrip s <:+: s := by
  unfold pyStrip
  have h1 : (s.dropWhile isPySpace).reverse.dropWhile isPySpace <:+
      (s.dropWhile isPySpace).reverse := dropWhile_isSuffix _ _
  obtain ⟨w, hw⟩ := h1
  have h2 : ((s.dropWhile isPySpace).reverse.dropWhile isPySpace).reverse <+:
      s.dropWhile isPySpace := by
    refine ⟨w.reverse, ?_⟩
    have := congrArg List.reverse hw
    simpa using this
  exact h2.isInfix.trans (dropWhile_isSuffix isPySpace s).isInfix

theorem addrMatch_length (v : List Char) (h : addrMatch v = true) :
    22 ≤ v.length := by
  unfold addrMatch at h
  simp only [Bool.and_eq_true, decide_eq_true_eq] at h
  have h1 : ((" object at 0x").toList).length ≤ v.length := by
    have := List.isPrefixOf_iff_prefix.mp h.1.1
    exact this.length_le
  have h2 := h.1.2
  simp only [List.length_take, List.length_drop] at h2
  simp only [List.length] at h1
  omega

theorem addrMatch_append (v r : List Char) (h : addrMatch v = true) :
    addrMatch (v ++ r) = true := by
  have hlen := addrMatch_length v h
  unfold addrMatch at h ⊢
  simp only [Bool.and_eq_true, decide_eq_true_eq] at h ⊢
  obtain ⟨⟨hp, hl⟩, hh⟩ := h
  have hdrop : (v ++ r).drop 13 = v.drop 13 ++ r := by
    rw [List.drop_append_of_le_length (by omega)]
  have htake : ((v ++ r).drop 13).take 9 = (v.drop 13).take 9 := by
    rw [hdrop]
    rw [List.take_append_of_le_length ?_]
    simp only [List.length_drop]
    omega
  refine ⟨⟨?_, ?_⟩, ?_⟩
  · rw [List.isPrefixOf_iff_prefix] at hp ⊢
    exact hp.trans (List.prefix_append v r)
  · rw [htake]; exact hl
  · rw [htake]; exact hh

theorem containsAddr_of_addrMatch_drop :
    ∀ (d : List Char) (i : Nat), addrMatch (d.drop i) = true →
      containsAddr d = true := by
  intro d
  induction d with
  | nil =>
    intro i h
    simp only [List.drop_nil] at h
    exact absurd h (by decide)
  | cons c rest ih =>
    intro i h
    cases i with
    | zero =>
      simp only [List.drop_zero] at h
      simp [containsAddr, h]
    | succ i =>
      simp only [List.drop_succ_cons] at h
      simp [containsAddr, ih i h]

theorem containsAddr_exists_drop :
    ∀ d : List Char, containsAddr d = true →
      ∃ i, i < d.length ∧ addrMatch (d.drop i) = true := by
  intro d
  induction d with
  | nil => intro h; exact absurd h (by decide)
  | cons c rest ih =>
    intro h
    simp only [containsAddr, Bool.or_eq_true] at h
    rcases h with h | h
    · exact ⟨0, by simp, h⟩
    · obtain ⟨i, hi, hm⟩ := ih h
      exact ⟨i + 1, by simp; omega, by simpa using hm⟩

theorem containsAddr_of_isInfix (u d : List Char) (hinf : u <:+: d)
    (h : containsAddr u = true) : containsAddr d = true := by
  obtain ⟨i, hi, hm⟩ := containsAddr_exists_drop u h
  obtain ⟨l, rr, hld⟩ := hinf
  have hdrop : d.drop (l.length + i) = u.drop i ++ rr := by
    rw [← hld, List.append_assoc, List.drop_append i,
      List.drop_append_of_le_length (Nat.le_of_lt hi)]
  exact containsAddr_of_addrMatch_drop d (l.length + i)
    (hdrop ▸ addrMatch_append (u.drop i) rr hm)

theorem overloadItem_fst_isInfix (d : List Char) (a c : Nat) :
    (overloadItem d a c).1 <:+: d := by
  unfold overloadItem
  cases pyFind d ('\n' :: []) a with
  | some e => exact pySlice_isInfix _ _ _
  | none => exact pySliceNegOne_isInfix _ _

theorem overloadItem_snd_isInfix (d : List Char) (a c : Nat) :
    (overloadItem d a c).2 <:+: d := by
  unfold overloadItem
  cases pyFind d ('\n' :: []) a with
  | some e => exact (pyStrip_isInfix _).trans (pySlice_isInfix _ _ _)
  | none => exact (pyStrip_isInfix _).trans (pySlice_isInfix _ _ _)

/-- C10: the claim as amended.  `processFunctionDoc` extracts every signature
and comment from the normalized documentation (each returned string is a
contiguous substring of `pyAddrSub doc`), so whenever the normalized text
contains no memory-address substring, neither does any returned signature or
comment.  The normalization deletes the left-to-right matches of the
original text, but a deletion can concatenate the surrounding text into a new
address substring, so the normalized text — and hence an output — can still
contain one (see the counterexample). -/
theorem processFunctionDoc_extracts_from_normalized (name doc s : List Char)
    (hmem : s ∈ (processFunctionDoc name doc).1 ++ (processFunctionDoc name doc).2) :
    s <:+: pyAddrSub doc ∧
      (containsAddr (pyAddrSub doc) = false → containsAddr s = false) := by
  have hinf : s <:+: pyAddrSub doc := by
    unfold processFunctionDoc at hmem
    by_cases hov : isOverloadedDoc name doc
    · rw [if_pos hov] at hmem
      cases hscan : overloadScan (pyAddrSub doc) ((pyAddrSub doc).length + 1)
          1 0 [] [] with
      | none =>
        rw [hscan] at hmem
        simp at hmem
      | some r =>
        rw [hscan] at hmem
        obtain ⟨sigIdxs, commEnds⟩ := r
        dsimp only at hmem
        simp only [List.mem_append, List.mem_map] at hmem
        rcases hmem with ⟨x, ⟨pr, _, hfx⟩, hxe⟩ | ⟨x, ⟨pr, _, hfx⟩, hxe⟩
        · rw [← hxe, ← hfx]
          exact overloadItem_fst_isInfix (pyAddrSub doc) pr.1 pr.2
        · rw [← hxe, ← hfx]
          exact overloadItem_snd_isInfix (pyAddrSub doc) pr.1 pr.2
    · rw [if_neg hov] at hmem
      cases hf : pyFind (pyAddrSub doc) ('\n' :: []) 0 with
      | some e =>
        rw [hf] at hmem
        dsimp only at hmem
        by_cases hsig : isSignatureLine ((pyAddrSub doc).take e)
        · rw [if_pos hsig] at hmem
          simp only [List.mem_append, List.mem_singleton] at hmem
          rcases hmem with hmem | hmem
          · rw [hmem]
            exact (take_isPrefix e _).isInfix
          · rw [hmem]
            exact (pyStrip_isInfix _).trans (drop_isSuffix _ _).isInfix
        · rw [if_neg hsig] at hmem
          simp at hmem
      | none =>
        rw [hf] at hmem
        dsimp only at hmem
        by_cases hsig : isSignatureLine ((pyAddrSub doc).take
            ((pyAddrSub doc).length - 1))
        · rw [if_pos hsig] at hmem
          simp only [List.mem_append, List.mem_singleton] at hmem
          rcases hmem with hmem | hmem
          · rw [hmem]
            exact (take_isPrefix _ _).isInfix
          · rw [hmem]
            exact pyStrip_isInfix _
        · rw [if_neg hsig] at hmem
          simp at hmem
  refine ⟨hinf, ?_⟩
  intro hclean
  cases hs : containsAddr s with
  | false => rfl
  | true =>
    rw [containsAddr_of_isInfix s (pyAddrSub doc) hinf hs] at hclean
    exact absurd hclean (by decide)

/-- C10 witness: the infix theorem on a clean non-overloaded doc. -/
theorem processFunctionDoc_extracts_from_normalized_witness :
    (("hello").toList) <:+: pyAddrSub (("f() -> int\nhello").toList) ∧
      (containsAddr (pyAddrSub (("f() -> int\nhello").toList)) = false →
        containsAddr (("hello").toList) = false) :=
  processFunctionDoc_extracts_from_normalized (("f").toList)
    (("f() -> int\nhello").toList) (("hello").toList) (by decide)

/-- C10 counterexample: deleting a match can concatenate the surrounding text
into a new memory-address substring, so a returned comment can still contain
one — the normalization does not guarantee address-free outputs for every
documentation text. -/
theorem processFunctionDoc_readdress_counterexample :
    containsAddr ((processFunctionDoc (("f").toList)
      (("f() -> int\nsee X object at 0x object at 0x123456789123456789 end").toList)).2.getD
        0 []) = true ∧
    (processFunctionDoc (("f").toList)
      (("f() -> int\nsee X object at 0x object at 0x123456789123456789 end").toList)).2.getD
        0 [] = (("see X object at 0x123456789 end").toList) := by
  constructor <;> decide

/-! ## C5: overloaded documentation with three numbered sections -/

theorem findOcc_bound (pat : List Char) :
    ∀ (s : List Char) (i : Nat), findOcc pat s = some i →
      i + pat.length ≤ s.length := by
  intro s
  induction s with
  | nil =>
    intro i h
    unfold findOcc at h
    by_cases hp : pat.isEmpty
    · rw [if_pos hp] at h
      injection h with h
      subst h
      simp [List.isEmpty_iff.mp hp]
    · rw [if_neg hp] at h
      exact absurd h (by simp)
  | cons c t ih =>
    intro i h
    unfold findOcc at h
    by_cases hp : pat.isPrefixOf (c :: t)
    · rw [if_pos hp] at h
      injection h with h
      subst h
      simpa using (List.isPrefixOf_iff_prefix.mp hp).length_le
    · rw [if_neg hp] at h
      cases hf : findOcc pat t with
      | none => rw [hf] at h; exact absurd h (by simp)
      | some j =>
        rw [hf] at h
        simp only [Option.map_some'] at h
        injection h with h
        have := ih j hf
        simp only [List.length_cons]
        omega

theorem pyFind_bound (s pat : List Char) (start idx : Nat)
    (hp : pat ≠ []) (h : pyFind s pat start = some idx) :
    start ≤ idx ∧ idx + pat.length ≤ s.length := by
  unfold pyFind at h
  cases hf : findOcc pat (s.drop start) with
  | none => rw [hf] at h; exact absurd h (by simp)
  | some j =>
    rw [hf] at h
    simp only [Option.map_some'] at h
    injection h with h
    have hb := findOcc_bound pat (s.drop start) j hf
    simp only [List.length_drop] at hb
    have hplen : 1 ≤ pat.length := by
      cases pat with
      | nil => exact absurd rfl hp
      | cons a t => simp
    omega

theorem overloadScan_none (d : List Char) (fuel expected index : Nat)
    (si ce : List Nat) (h : pyFind d (markerStr expected) index = none) :
    overloadScan d fuel expected index si ce = some (si, ce ++ [d.length]) := by
  unfold overloadScan
  rw [h]

theorem overloadScan_found (d : List Char) (fuel expected index idx : Nat)
    (si ce : List Nat) (h : pyFind d (markerStr expected) index = some idx) :
    overloadScan d (fuel + 1) expected index si ce =
      overloadScan d fuel (expected + 1) (idx + (markerStr expected).length)
        (si ++ [idx + (markerStr expected).length])
        (if 1 < expected then ce ++ [idx] else ce) := by
  conv_lhs => unfold overloadScan
  rw [h]

/-- C5: the claim as amended.  For a routine marked overloaded whose
documentation (already free of memory-address substrings) contains the
markers `\n\n1. `, `\n\n2. `, `\n\n3. ` in scan order and no `\n\n4. ` after
the third, and whose three signature lines are each terminated by a newline,
`processFunctionDoc` returns exactly 3 signatures in section order, where
signature i is the first line of section i and comment i is the text between
that line and the next marker (the end of the document for the last section)
with surrounding whitespace stripped.  A missing expected index terminates
scanning.  (The stripping, and the newline-termination condition on the last
signature line — without which the code truncates the final signature and
mis-slices its comment — are the amendments.) -/
theorem processFunctionDoc_three_sections (name doc : List Char)
    (i1 i2 i3 e1 e2 e3 : Nat)
    (hclean : pyAddrSub doc = doc)
    (hov : isOverloadedDoc name doc = true)
    (h1 : pyFind doc (markerStr 1) 0 = some i1)
    (h2 : pyFind doc (markerStr 2) (i1 + 5) = some i2)
    (h3 : pyFind doc (markerStr 3) (i2 + 5) = some i3)
    (h4 : pyFind doc (markerStr 4) (i3 + 5) = none)
    (he1 : pyFind doc ('\n' :: []) (i1 + 5) = some e1)
    (he2 : pyFind doc ('\n' :: []) (i2 + 5) = some e2)
    (he3 : pyFind doc ('\n' :: []) (i3 + 5) = some e3) :
    processFunctionDoc name doc =
      ([pySlice doc (i1 + 5) e1, pySlice doc (i2 + 5) e2, pySlice doc (i3 + 5) e3],
       [pyStrip (pySlice doc (e1 + 1) i2), pyStrip (pySlice doc (e2 + 1) i3),
        pyStrip (pySlice doc (e3 + 1) doc.length)]) := by
  have hb3 := pyFind_bound doc (markerStr 3) (i2 + 5) i3 (by decide) h3
  have hlen : i3 + 5 ≤ doc.length := by
    have := hb3.2
    rw [show (markerStr 3).length = 5 from rfl] at this
    exact this
  obtain ⟨k, hk⟩ : ∃ k, doc.length + 1 = k + 3 := ⟨doc.length - 2, by omega⟩
  unfold processFunctionDoc
  rw [hclean, if_pos hov, hk]
  rw [overloadScan_found doc (k + 2) 1 0 i1 [] [] h1]
  rw [show (markerStr 1).length = 5 from rfl]
  rw [if_neg (by omega)]
  rw [overloadScan_found doc (k + 1) 2 (i1 + 5) i2 _ _ h2]
  rw [show (markerStr 2).length = 5 from rfl]
  rw [if_pos (by omega)]
  rw [overloadScan_found doc k 3 (i2 + 5) i3 _ _ h3]
  rw [show (markerStr 3).length = 5 from rfl]
  rw [if_pos (by omega)]
  rw [overloadScan_none doc k 4 (i3 + 5) _ _ h4]
  dsimp only
  simp [overloadItem, he1, he2, he3]

/-- The three-section overloaded documentation used by the C5 theorems. -/
def docC5a : List Char :=
  ("f(*args, **kwargs)\nOverloaded function.\n\n1. a() -> int\n  c1  \n\n2. b() -> int\nc2\n\n3. c() -> int\nc3\n").toList

/-- The same documentation without the final newline. -/
def docC5b : List Char :=
  ("f(*args, **kwargs)\nOverloaded function.\n\n1. a() -> int\nc1\n\n2. b() -> int\nc2\n\n3. c() -> int").toList

/-- C5 witness: the three-sections theorem on a concrete overloaded doc. -/
theorem processFunctionDoc_three_sections_witness :
    processFunctionDoc (("f").toList) docC5a =
      ([pySlice docC5a (39 + 5) 54, pySlice docC5a (61 + 5) 76,
        pySlice docC5a (79 + 5) 94],
       [pyStrip (pySlice docC5a (54 + 1) 61), pyStrip (pySlice docC5a (76 + 1) 79),
        pyStrip (pySlice docC5a (94 + 1) docC5a.length)]) :=
  processFunctionDoc_three_sections (("f").toList) docC5a 39 61 79 54 76 94
    (by decide) (by decide) (by decide) (by decide) (by decide) (by decide)
    (by decide) (by decide) (by decide)

/-- C5 counterexample: (a) the comment of section 1 of `docC5a` is returned
with its whitespace stripped (`"c1"`), not as the raw text up to the next
marker (`"  c1  "`); (b) when the document does not end with a newline
(`docC5b`), the third returned signature is `"c() -> in"` — the first line of
section 3 minus its last character — not the first line `"c() -> int"`. -/
theorem processFunctionDoc_strip_and_last_line_counterexample :
    ((processFunctionDoc (("f").toList) docC5a).2.getD 0 [] = (("c1").toList) ∧
     pySlice docC5a
       (((pyFind docC5a ('\n' :: [])
           (((pyFind docC5a (markerStr 1) 0).getD 0) + 5)).getD 0) + 1)
       ((pyFind docC5a (markerStr 2) 0).getD 0) = (("  c1  ").toList) ∧
     ¬ (("c1").toList) = (("  c1  ").toList)) ∧
    ((processFunctionDoc (("f").toList) docC5b).1.getD 2 [] =
       (("c() -> in").toList) ∧
     ¬ (("c() -> in").toList) = (("c() -> int").toList)) := by
  refine ⟨⟨?_, ?_, ?_⟩, ?_, ?_⟩ <;> decide

/-! ## C4: round-trip of the Generator's literal-default formatting

Helper lemmas about the bracket-aware tokenizer, slices, and `find` on
decomposed strings. -/

theorem feotGo_append (delims : List Char) :
    ∀ (tok stack stack' rest : List Char) (i : Nat),
      tokScan delims stack tok = some stack' →
      feotGo delims stack (tok ++ rest) i = feotGo delims stack' rest (i + tok.length) := by
  intro tok
  induction tok with
  | nil =>
    intro stack stack' rest i h
    injection h with h
    subst h
    simp
  | cons c tok ih =>
    intro stack stack' rest i h
    by_cases hc1 : c = '('
    · subst hc1
      rw [show tokScan delims stack ('(' :: tok) =
          tokScan delims (')' :: stack) tok by simp [tokScan]] at h
      rw [show (('(' :: tok) ++ rest) = '(' :: (tok ++ rest) by simp]
      rw [show feotGo delims stack ('(' :: (tok ++ rest)) i =
          feotGo delims (')' :: stack) (tok ++ rest) (i + 1) by simp [feotGo]]
      rw [ih (')' :: stack) stack' rest (i + 1) h]
      simp only [List.length_cons]
      ring_nf
    · by_cases hc2 : c = '['
      · subst hc2
        rw [show tokScan delims stack ('[' :: tok) =
            tokScan delims (']' :: stack) tok by simp [tokScan, hc1]] at h
        rw [show (('[' :: tok) ++ rest) = '[' :: (tok ++ rest) by simp]
        rw [show feotGo delims stack ('[' :: (tok ++ rest)) i =
            feotGo delims (']' :: stack) (tok ++ rest) (i + 1) by
          simp [feotGo, hc1]] at *
        rw [ih (']' :: stack) stack' rest (i + 1) h]
        simp only [List.length_cons]
        ring_nf
      · cases stack with
        | cons top stack0 =>
          by_cases hct : c = top
          · subst hct
            rw [show tokScan delims (c :: stack0) (c :: tok) =
                tokScan delims stack0 tok by simp [tokScan, hc1, hc2]] at h
            rw [show ((c :: tok) ++ rest) = c :: (tok ++ rest) by simp]
            rw [show feotGo delims (c :: stack0) (c :: (tok ++ rest)) i =
                feotGo delims stack0 (tok ++ rest) (i + 1) by
              simp [feotGo, hc1, hc2]]
            rw [ih stack0 stack' rest (i + 1) h]
            simp only [List.length_cons]
            ring_nf
          · rw [show tokScan delims (top :: stack0) (c :: tok) =
                tokScan delims (top :: stack0) tok by
              simp [tokScan, hc1, hc2, hct]] at h
            rw [show ((c :: tok) ++ rest) = c :: (tok ++ rest) by simp]
            rw [show feotGo delims (top :: stack0) (c :: (tok ++ rest)) i =
                feotGo delims (top :: stack0) (tok ++ rest) (i + 1) by
              simp [feotGo, hc1, hc2, hct]]
            rw [ih (top :: stack0) stack' rest (i + 1) h]
            simp only [List.length_cons]
            ring_nf
        | nil =>
          by_cases hcd : c ∈ delims
          · rw [show tokScan delims [] (c :: tok) = none by
              simp [tokScan, hc1, hc2, hcd]] at h
            exact absurd h (by simp)
          · rw [show tokScan delims [] (c :: tok) = tokScan delims [] tok by
              simp [tokScan, hc1, hc2, hcd]] at h
            rw [show ((c :: tok) ++ rest) = c :: (tok ++ rest) by simp]
            rw [show feotGo delims [] (c :: (tok ++ rest)) i =
                feotGo delims [] (tok ++ rest) (i + 1) by
              simp [feotGo, hc1, hc2, hcd]]
            rw [ih [] stack' rest (i + 1) h]
            simp only [List.length_cons]
            ring_nf

theorem tokScan_subset (D1 D2 : List Char) (hsub : ∀ c, c ∈ D1 → c ∈ D2) :
    ∀ (tok stack stack' : List Char), tokScan D2 stack tok = some stack' →
      tokScan D1 stack tok = some stack' := by
  intro tok
  induction tok with
  | nil => intro stack stack' h; exact h
  | cons c tok ih =>
    intro stack stack' h
    by_cases hc1 : c = '('
    · subst hc1
      rw [show tokScan D2 stack ('(' :: tok) = tokScan D2 (')' :: stack) tok
        by simp [tokScan]] at h
      rw [show tokScan D1 stack ('(' :: tok) = tokScan D1 (')' :: stack) tok
        by simp [tokScan]]
      exact ih _ _ h
    · by_cases hc2 : c = '['
      · subst hc2
        rw [show tokScan D2 stack ('[' :: tok) = tokScan D2 (']' :: stack) tok
          by simp [tokScan, hc1]] at h
        rw [show tokScan D1 stack ('[' :: tok) = tokScan D1 (']' :: stack) tok
          by simp [tokScan, hc1]]
        exact ih _ _ h
      · cases stack with
        | cons top stack0 =>
          by_cases hct : c = top
          · subst hct
            rw [show tokScan D2 (c :: stack0) (c :: tok) = tokScan D2 stack0 tok
              by simp [tokScan, hc1, hc2]] at h
            rw [show tokScan D1 (c :: stack0) (c :: tok) = tokScan D1 stack0 tok
              by simp [tokScan, hc1, hc2]]
            exact ih _ _ h
          · rw [show tokScan D2 (top :: stack0) (c :: tok) =
                tokScan D2 (top :: stack0) tok by simp [tokScan, hc1, hc2, hct]] at h
            rw [show tokScan D1 (top :: stack0) (c :: tok) =
                tokScan D1 (top :: stack0) tok by simp [tokScan, hc1, hc2, hct]]
            exact ih _ _ h
        | nil =>
          by_cases hcd2 : c ∈ D2
          · rw [show tokScan D2 [] (c :: tok) = none by
              simp [tokScan, hc1, hc2, hcd2]] at h
            exact absurd h (by simp)
          · have hcd1 : ¬ c ∈ D1 := fun hc => hcd2 (hsub c hc)
            rw [show tokScan D2 [] (c :: tok) = tokScan D2 [] tok by
              simp [tokScan, hc1, hc2, hcd2]] at h
            rw [show tokScan D1 [] (c :: tok) = tokScan D1 [] tok by
              simp [tokScan, hc1, hc2, hcd1]]
            exact ih _ _ h

theorem findEndOfToken_token (args : List Char) (iStart : Nat)
    (tok rest delims : List Char)
    (hdrop : args.drop iStart = tok ++ rest)
    (htok : tokScan delims [] tok = some [])
    (hrest : rest = [] ∨ ∃ c rest', rest = c :: rest' ∧ c ∈ delims ∧
      c ≠ '(' ∧ c ≠ '[') :
    findEndOfToken args iStart delims = iStart + tok.length := by
  unfold findEndOfToken
  rw [hdrop, feotGo_append delims tok [] [] rest iStart htok]
  rcases hrest with hrest | ⟨c, rest', hrest, hcd, hc1, hc2⟩
  · rw [hrest]
    rfl
  · rw [hrest]
    simp [feotGo, hc1, hc2, hcd]

theorem pySlice_mid (pre mid post : List Char) :
    pySlice (pre ++ mid ++ post) pre.length (pre.length + mid.length) = mid := by
  unfold pySlice
  rw [List.append_assoc, List.take_append, List.take_left]
  exact List.drop_left pre mid

theorem pySlice_take (pre suf : List Char) (k : Nat) :
    pySlice (pre ++ suf) pre.length (pre.length + k) = suf.take k := by
  unfold pySlice
  rw [List.take_append]
  exact List.drop_left pre (suf.take k)

theorem pyFind_append (pre suf pat : List Char) :
    pyFind (pre ++ suf) pat pre.length = (findOcc pat suf).map (pre.length + ·) := by
  unfold pyFind
  rw [List.drop_left]

theorem findOcc_colonSpace (n : List Char) (rest : List Char)
    (hw : n.all isWordChar) :
    findOcc ((": ").toList) (n ++ ':' :: ' ' :: rest) = some n.length := by
  induction n with
  | nil => simp [findOcc, List.isPrefixOf]
  | cons c n ih =>
    simp only [List.all_cons, Bool.and_eq_true] at hw
    have hc : ¬ ((": ").toList).isPrefixOf (c :: (n ++ ':' :: ' ' :: rest)) = true := by
      intro hpre
      simp only [show ((": ").toList) = ':' :: ' ' :: ([] : List Char) from rfl,
        List.isPrefixOf] at hpre
      rw [Bool.and_eq_true] at hpre
      have hcc : (':' : Char) = c := by simpa using hpre.1
      rw [← hcc] at hw
      exact absurd hw.1 (by decide)
    rw [show ((c :: n) ++ ':' :: ' ' :: rest) = c :: (n ++ ':' :: ' ' :: rest)
      by simp]
    unfold findOcc
    rw [if_neg hc, ih hw.2]
    simp

/-- Well-formedness of a whole formatted entry list. -/
def wfEntries (es : List ((List Char) × (List Char) × Option (List Char))) : Bool :=
  es.all wfEntry

theorem mem_word (c : Char) (l : List Char) (hw : l.all isWordChar)
    (hc : c ∈ l) : isWordChar c = true := by
  rw [List.all_eq_true] at hw
  exact hw c hc

theorem not_nl_mem_of_word (l : List Char) (hw : l.all isWordChar) :
    ¬ '\n' ∈ l := by
  intro hmem
  exact absurd (mem_word '\n' l hw hmem) (by decide)

theorem not_nl_of_noNl (l : List Char) (h : noNl l = true) : ¬ '\n' ∈ l := by
  unfold noNl at h
  rw [Bool.not_eq_true'] at h
  simpa using h

theorem wfEntry_parts (e : (List Char) × (List Char) × Option (List Char))
    (hwf : wfEntry e = true) :
    (¬ e.1.isEmpty = true ∧ e.1.all isWordChar = true) ∧
      (tokenOk [',', ' '] e.2.1 = true ∧ ¬ '\n' ∈ e.2.1) ∧
      (∀ v, e.2.2 = some v → tokenOk [',', ' '] v = true ∧ ¬ '\n' ∈ v) := by
  obtain ⟨n, t, d⟩ := e
  unfold wfEntry wfName wfTok at hwf
  simp only [Bool.and_eq_true] at hwf
  refine ⟨⟨by simpa using hwf.1.1.1, hwf.1.1.2⟩,
    ⟨hwf.1.2.1, not_nl_of_noNl t hwf.1.2.2⟩, ?_⟩
  intro v hv
  cases d with
  | none => exact absurd hv (by simp)
  | some v0 =>
    injection hv with hv
    subst hv
    simp only [Bool.and_eq_true] at hwf
    exact ⟨hwf.2.1, not_nl_of_noNl _ hwf.2.2⟩

theorem not_nl_mem_entryStr (e : (List Char) × (List Char) × Option (List Char))
    (hwf : wfEntry e = true) : ¬ '\n' ∈ entryStr e := by
  obtain ⟨⟨_, hn⟩, ⟨_, ht⟩, hd⟩ := wfEntry_parts e hwf
  obtain ⟨n, t, d⟩ := e
  cases d with
  | none =>
    intro hmem
    rw [show entryStr (n, t, none) = (n ++ ((": ").toList)) ++ t from by
      simp [entryStr]] at hmem
    rcases List.mem_append.mp hmem with hmem | hmem
    · rcases List.mem_append.mp hmem with hmem | hmem
      · exact not_nl_mem_of_word n hn hmem
      · exact absurd hmem (by decide)
    · exact ht hmem
  | some v =>
    intro hmem
    rw [show entryStr (n, t, some v) =
        (((n ++ ((": ").toList)) ++ t) ++ (' ' :: '=' :: ' ' :: [])) ++ v from by
      simp [entryStr]] at hmem
    rcases List.mem_append.mp hmem with hmem | hmem
    · rcases List.mem_append.mp hmem with hmem | hmem
      · rcases List.mem_append.mp hmem with hmem | hmem
        · rcases List.mem_append.mp hmem with hmem | hmem
          · exact not_nl_mem_of_word n hn hmem
          · exact absurd hmem (by decide)
        · exact ht hmem
      · exact absurd hmem (by decide)
    · exact (hd v rfl).2 hmem

theorem entriesStr_single (e : (List Char) × (List Char) × Option (List Char)) :
    entriesStr [e] = entryStr e := rfl

theorem entriesStr_cons_cons (e e' : (List Char) × (List Char) × Option (List Char))
    (es : List ((List Char) × (List Char) × Option (List Char))) :
    entriesStr (e :: e' :: es) =
      entryStr e ++ ((", ").toList) ++ entriesStr (e' :: es) := rfl

theorem not_nl_mem_entriesStr
    (es : List ((List Char) × (List Char) × Option (List Char)))
    (hwf : wfEntries es = true) : ¬ '\n' ∈ entriesStr es := by
  induction es with
  | nil => simp [entriesStr]
  | cons e es ih =>
    unfold wfEntries at hwf ih
    simp only [List.all_cons, Bool.and_eq_true] at hwf
    cases es with
    | nil =>
      rw [entriesStr_single]
      exact not_nl_mem_entryStr e hwf.1
    | cons e' es' =>
      rw [entriesStr_cons_cons]
      intro hmem
      simp only [List.mem_append] at hmem
      rcases hmem with (hmem | hmem) | hmem
      · exact not_nl_mem_entryStr e hwf.1 hmem
      · exact absurd hmem (by decide)
      · exact ih hwf.2 hmem

theorem takeWhile_word_paren (n X : List Char) (hw : n.all isWordChar) :
    (n ++ '(' :: X).takeWhile isWordChar = n := by
  induction n with
  | nil => simp [List.takeWhile_cons, show isWordChar '(' = false from by decide]
  | cons c n ih =>
    simp only [List.all_cons, Bool.and_eq_true] at hw
    simp only [List.cons_append, List.takeWhile_cons, hw.1, if_true]
    rw [ih hw.2]

theorem dropWhile_word_paren (n X : List Char) (hw : n.all isWordChar) :
    (n ++ '(' :: X).dropWhile isWordChar = '(' :: X := by
  induction n with
  | nil => simp [List.dropWhile_cons, show isWordChar '(' = false from by decide]
  | cons c n ih =>
    simp only [List.all_cons, Bool.and_eq_true] at hw
    simp only [List.cons_append, List.dropWhile_cons, hw.1, if_true]
    exact ih hw.2

theorem filter_range_getLast (p : Nat → Bool) :
    ∀ (n m : Nat), m < n → p m = true → (∀ k, m < k → k < n → p k = false) →
      ((List.range n).filter p).getLast? = some m := by
  intro n
  induction n with
  | zero => intro m hm; omega
  | succ n ih =>
    intro m hm hp habove
    rcases Nat.lt_or_ge m n with hmn | hmn
    · rw [List.range_succ, List.filter_append]
      rw [show List.filter p [n] = [] by simp [habove n hmn (by omega)]]
      rw [List.append_nil]
      exact ih m hmn hp (fun k h1 h2 => habove k h1 (by omega))
    · have hmeq : m = n := by omega
      subst hmeq
      rw [List.range_succ, List.filter_append]
      rw [show List.filter p [m] = [m] by simp [hp]]
      exact List.getLast?_concat _

theorem isPrefixOf_head (c : Char) (p s : List Char)
    (h : (c :: p).isPrefixOf s = true) : s.head? = some c := by
  cases s with
  | nil => exact absurd h (by simp [List.isPrefixOf])
  | cons b t =>
    simp only [List.isPrefixOf, Bool.and_eq_true] at h
    have : c = b := by simpa using h.1
    rw [this]
    rfl

theorem findOcc_isSome_of_prefix_drop (pat : List Char) (hp : pat ≠ []) :
    ∀ (s : List Char) (j : Nat), pat.isPrefixOf (s.drop j) = true →
      (findOcc pat s).isSome := by
  intro s
  induction s with
  | nil =>
    intro j h
    simp only [List.drop_nil] at h
    cases pat with
    | nil => exact absurd rfl hp
    | cons c t => exact absurd h (by simp [List.isPrefixOf])
  | cons c t ih =>
    intro j h
    cases j with
    | zero =>
      simp only [List.drop_zero] at h
      unfold findOcc
      rw [if_pos h]
      rfl
    | succ j =>
      simp only [List.drop_succ_cons] at h
      unfold findOcc
      by_cases hpre : pat.isPrefixOf (c :: t) = true
      · rw [if_pos hpre]; rfl
      · rw [if_neg hpre]
        have hsome := ih j h
        cases hf : findOcc pat t with
        | none => rw [hf] at hsome; exact absurd hsome (by simp)
        | some x => simp

theorem lastSplitPos_exact (args ret : List Char) (hret : ret ≠ [])
    (hno : findOcc (((") -> ").toList)) ret = none) :
    lastSplitPos (args ++ ((") -> ").toList) ++ ret) (((") -> ").toList)) =
      some args.length := by
  unfold lastSplitPos
  have hlen : (args ++ ((") -> ").toList) ++ ret).length =
      args.length + 5 + ret.length := by
    simp
    omega
  have hretlen : 1 ≤ ret.length := by
    cases ret with
    | nil => exact absurd rfl hret
    | cons a t => simp
  refine filter_range_getLast _ _ args.length (by omega) ?_ ?_
  · have hdrop : (args ++ ((") -> ").toList) ++ ret).drop args.length =
        ((") -> ").toList) ++ ret := by
      rw [List.append_assoc]
      exact List.drop_left args _
    rw [hdrop]
    simp only [Bool.and_eq_true, decide_eq_true_eq]
    constructor
    · exact List.isPrefixOf_iff_prefix.mpr (List.prefix_append _ _)
    · rw [hlen]
      show args.length + 5 < args.length + 5 + ret.length
      omega
  · intro k hk1 hk2
    rw [Bool.eq_false_iff]
    intro hcontra
    simp only [Bool.and_eq_true, decide_eq_true_eq] at hcontra
    obtain ⟨hpre, _⟩ := hcontra
    rcases Nat.lt_or_ge k (args.length + 5) with hk5 | hk5
    · -- k lands inside the literal ") -> ": the dropped text starts with one
      -- of ' ', '-', '>', none of which is ')'
      obtain ⟨j, hj⟩ : ∃ j, k = args.length + j := ⟨k - args.length, by omega⟩
      have hj14 : 1 ≤ j ∧ j ≤ 4 := by omega
      subst hj
      have hdrop : (args ++ ((") -> ").toList) ++ ret).drop (args.length + j) =
          (((") -> ").toList).drop j) ++ ret := by
        rw [List.append_assoc, List.drop_append j,
          List.drop_append_of_le_length (by simp; omega)]
      rw [hdrop] at hpre
      have hhead := isPrefixOf_head ')' _ _ hpre
      have hj4 : j = 1 ∨ j = 2 ∨ j = 3 ∨ j = 4 := by omega
      rcases hj4 with hj4 | hj4 | hj4 | hj4 <;> subst hj4 <;>
        simp at hhead
    · -- k lands inside ret: ret would contain the separator
      obtain ⟨j, hj⟩ : ∃ j, k = (args.length + 5) + j :=
        ⟨k - args.length - 5, by omega⟩
      subst hj
      have hdrop : (args ++ ((") -> ").toList) ++ ret).drop
          (args.length + 5 + j) = ret.drop j := by
        rw [show args ++ ((") -> ").toList) ++ ret =
          (args ++ ((") -> ").toList)) ++ ret from rfl]
        rw [show args.length + 5 + j = (args ++ ((") -> ").toList)).length + j
          from by simp]
        exact List.drop_append j
      rw [hdrop] at hpre
      have hocc := findOcc_isSome_of_prefix_drop (((") -> ").toList)) (by decide)
        ret j hpre
      rw [hno] at hocc
      exact absurd hocc (by simp)

/-- The outer regex on a well-formed formatted line: the groups are exactly
the function name, the formatted params text, and the return type. -/
theorem pyRegexSig_format (fname ret : List Char)
    (es : List ((List Char) × (List Char) × Option (List Char)))
    (hname : wfName fname = true)
    (hes : wfEntries es = true)
    (hret : wfRet ret = true) :
    pyRegexSig (formatSigLine fname es ret) = some (fname, entriesStr es, ret) := by
  unfold wfName at hname
  simp only [Bool.and_eq_true] at hname
  unfold wfRet at hret
  simp only [Bool.and_eq_true] at hret
  have hnl : ¬ '\n' ∈ formatSigLine fname es ret := by
    unfold formatSigLine
    intro hmem
    simp only [List.mem_append, List.mem_cons, or_assoc] at hmem
    rcases hmem with hmem | hmem | hmem | hmem | hmem
    · exact not_nl_mem_of_word fname hname.2 hmem
    · exact absurd hmem (by decide)
    · exact not_nl_mem_entriesStr es hes hmem
    · exact absurd hmem (by decide)
    · exact not_nl_of_noNl ret hret.1.2 hmem
  unfold pyRegexSig
  rw [if_neg (by simpa using hnl)]
  have hshape : formatSigLine fname es ret =
      fname ++ '(' :: (entriesStr es ++ ((") -> ").toList) ++ ret) := rfl
  rw [hshape]
  rw [takeWhile_word_paren fname _ hname.2, dropWhile_word_paren fname _ hname.2]
  dsimp only
  rw [if_neg (by
    intro hempty
    rw [List.isEmpty_iff] at hempty
    exact absurd hempty (by
      intro hcon
      rw [hcon] at hname
      exact absurd hname.1 (by decide)))]
  rw [if_pos rfl]
  have hretne : ret ≠ [] := by
    intro hcon
    rw [hcon] at hret
    have := hret.1.1
    simp at this
  have hnoret : findOcc (((") -> ").toList)) ret = none := by
    cases hf : findOcc (((") -> ").toList)) ret with
    | none => rfl
    | some x =>
      have := hret.2
      rw [hf] at this
      simp at this
  rw [lastSplitPos_exact (entriesStr es) ret hretne hnoret]
  dsimp only
  rw [show entriesStr es ++ ((") -> ").toList) ++ ret =
    entriesStr es ++ (((") -> ").toList) ++ ret) from by simp]
  rw [List.take_left]
  rw [show entriesStr es ++ (((") -> ").toList) ++ ret) =
    (entriesStr es ++ ((") -> ").toList)) ++ ret from by simp]
  rw [show (entriesStr es).length + 5 =
    (entriesStr es ++ ((") -> ").toList)).length from by simp]
  rw [List.drop_left]

theorem tokScan_of_tokenOk (t : List Char) (h : tokenOk [',', ' '] t = true) :
    tokScan [',', ' '] [] t = some [] := by
  unfold tokenOk at h
  simpa using h

theorem tokScan_comma_of_tokenOk (t : List Char)
    (h : tokenOk [',', ' '] t = true) : tokScan [','] [] t = some [] := by
  exact tokScan_subset [','] [',', ' '] (by intro c hc; simp at hc; simp [hc])
    t [] [] (tokScan_of_tokenOk t h)

/-- One iteration of the scanning loop on a well-formed default-free entry:
the loop consumes `name: type` (and a following `", "` if more text follows)
and records the entry. -/
theorem processArgs_step_none (pre n t tail : List Char) (fuel : Nat)
    (ns ts : List (List Char)) (ds : List (Option (List Char)))
    (hn : n.all isWordChar = true) (hne : n ≠ [])
    (ht : tokenOk [',', ' '] t = true)
    (htail : tail = [] ∨ ∃ rest, tail = ',' :: ' ' :: rest) :
    processArgs (pre ++ entryStr (n, t, none) ++ tail) (fuel + 1) pre.length
        ns ts ds =
      processArgs (pre ++ entryStr (n, t, none) ++ tail) fuel
        (pre.length + n.length + 2 + t.length + (if tail = [] then 0 else 2))
        (ns ++ [n]) (ts ++ [t]) (ds ++ [none]) := by
  have hnlen : 1 ≤ n.length := by
    cases n with
    | nil => exact absurd rfl hne
    | cons a l => simp
  have hE : entryStr (n, t, none) = n ++ ':' :: ' ' :: t := by
    simp [entryStr]
  have hAlen : (pre ++ entryStr (n, t, none) ++ tail).length =
      pre.length + n.length + 2 + t.length + tail.length := by
    rw [hE]
    simp only [List.length_append, List.length_cons]
    omega
  have hguard : pre.length < (pre ++ entryStr (n, t, none) ++ tail).length := by
    rw [hAlen]; omega
  have hfind : pyFind (pre ++ entryStr (n, t, none) ++ tail) ((": ").toList)
      pre.length = some (pre.length + n.length) := by
    rw [show pre ++ entryStr (n, t, none) ++ tail =
      pre ++ (n ++ ':' :: ' ' :: (t ++ tail)) from by rw [hE]; simp]
    rw [pyFind_append, findOcc_colonSpace _ _ hn]
    rfl
  have hnameslice : pySlice (pre ++ entryStr (n, t, none) ++ tail) pre.length
      (pre.length + n.length) = n := by
    rw [show pre ++ entryStr (n, t, none) ++ tail =
      pre ++ n ++ (':' :: ' ' :: (t ++ tail)) from by rw [hE]; simp]
    exact pySlice_mid pre n _
  have hdrop : (pre ++ entryStr (n, t, none) ++ tail).drop
      (pre.length + n.length + 2) = t ++ tail := by
    rw [show pre ++ entryStr (n, t, none) ++ tail =
      (pre ++ n ++ (':' :: ' ' :: [])) ++ (t ++ tail) from by rw [hE]; simp]
    rw [show pre.length + n.length + 2 =
      (pre ++ n ++ (':' :: ' ' :: [])).length from by
        simp only [List.length_append, List.length_cons, List.length_nil]]
    exact List.drop_left _ _
  have hfeot : findEndOfToken (pre ++ entryStr (n, t, none) ++ tail)
      (pre.length + n.length + 2) [',', ' '] =
      pre.length + n.length + 2 + t.length := by
    refine findEndOfToken_token _ _ t tail _ hdrop (tokScan_of_tokenOk t ht) ?_
    rcases htail with htail | ⟨rest, htail⟩
    · exact Or.inl htail
    · exact Or.inr ⟨',', ' ' :: rest, htail, by decide, by decide, by decide⟩
  have htypeslice : pySlice (pre ++ entryStr (n, t, none) ++ tail)
      (pre.length + n.length + 2) (pre.length + n.length + 2 + t.length) = t := by
    rw [show pre ++ entryStr (n, t, none) ++ tail =
      (pre ++ n ++ (':' :: ' ' :: [])) ++ t ++ tail from by rw [hE]; simp]
    rw [show pre.length + n.length + 2 =
      (pre ++ n ++ (':' :: ' ' :: [])).length from by
        simp only [List.length_append, List.length_cons, List.length_nil]]
    exact pySlice_mid _ t tail
  have hentrylen : pre.length + n.length + 2 + t.length =
      (pre ++ entryStr (n, t, none)).length := by
    rw [hE]
    simp only [List.length_append, List.length_cons]
    omega
  have htailslice : ∀ k, pySlice (pre ++ entryStr (n, t, none) ++ tail)
      (pre.length + n.length + 2 + t.length)
      (pre.length + n.length + 2 + t.length + k) = tail.take k := by
    intro k
    rw [show pre ++ entryStr (n, t, none) ++ tail =
      (pre ++ entryStr (n, t, none)) ++ tail from by simp]
    rw [hentrylen]
    exact pySlice_take _ tail k
  have hargstep : argStep (pre ++ entryStr (n, t, none) ++ tail)
      (pre.length + n.length + 2) =
      (t, none, pre.length + n.length + 2 + t.length) := by
    have hcond : (decide (pre.length + n.length + 2 + t.length + 2 <
        (pre ++ entryStr (n, t, none) ++ tail).length) &&
        decide (pySlice (pre ++ entryStr (n, t, none) ++ tail)
          (pre.length + n.length + 2 + t.length)
          (pre.length + n.length + 2 + t.length + 3) = ((" = ").toList))) =
        false := by
      rcases htail with htail | ⟨rest, htail⟩
      · have h1 : decide (pre.length + n.length + 2 + t.length + 2 <
            (pre ++ entryStr (n, t, none) ++ tail).length) = false := by
          simp only [decide_eq_false_iff_not]
          rw [hAlen, htail]
          simp only [List.length_nil]
          omega
        rw [h1, Bool.false_and]
      · have h2 : decide (pySlice (pre ++ entryStr (n, t, none) ++ tail)
            (pre.length + n.length + 2 + t.length)
            (pre.length + n.length + 2 + t.length + 3) = ((" = ").toList)) =
            false := by
          simp only [decide_eq_false_iff_not]
          rw [htailslice 3, htail]
          simp
        rw [h2, Bool.and_false]
    unfold argStep
    rw [hfeot]
    dsimp only
    rw [hcond, if_neg Bool.false_ne_true, htypeslice]
  have hadv : advanceComma (pre ++ entryStr (n, t, none) ++ tail)
      (pre.length + n.length + 2 + t.length) =
      pre.length + n.length + 2 + t.length + (if tail = [] then 0 else 2) := by
    unfold advanceComma
    rcases htail with htail | ⟨rest, htail⟩
    · have h1 : (decide (pre.length + n.length + 2 + t.length + 1 <
          (pre ++ entryStr (n, t, none) ++ tail).length) &&
          decide (pySlice (pre ++ entryStr (n, t, none) ++ tail)
            (pre.length + n.length + 2 + t.length)
            (pre.length + n.length + 2 + t.length + 2) = ((", ").toList))) =
          false := by
        have h0 : decide (pre.length + n.length + 2 + t.length + 1 <
            (pre ++ entryStr (n, t, none) ++ tail).length) = false := by
          simp only [decide_eq_false_iff_not]
          rw [hAlen, htail]
          simp only [List.length_nil]
          omega
        rw [h0, Bool.false_and]
      rw [h1, if_neg Bool.false_ne_true, if_pos htail]
      omega
    · have h1 : (decide (pre.length + n.length + 2 + t.length + 1 <
          (pre ++ entryStr (n, t, none) ++ tail).length) &&
          decide (pySlice (pre ++ entryStr (n, t, none) ++ tail)
            (pre.length + n.length + 2 + t.length)
            (pre.length + n.length + 2 + t.length + 2) = ((", ").toList))) =
          true := by
        have h0 : decide (pre.length + n.length + 2 + t.length + 1 <
            (pre ++ entryStr (n, t, none) ++ tail).length) = true := by
          simp only [decide_eq_true_eq]
          rw [hAlen, htail]
          simp only [List.length_cons]
          omega
        have h2 : decide (pySlice (pre ++ entryStr (n, t, none) ++ tail)
            (pre.length + n.length + 2 + t.length)
            (pre.length + n.length + 2 + t.length + 2) = ((", ").toList)) =
            true := by
          simp only [decide_eq_true_eq]
          rw [htailslice 2, htail]
          rfl
        rw [h0, h2, Bool.and_self]
      rw [h1, if_pos rfl, if_neg (by rw [htail]; simp)]
  conv_lhs => unfold processArgs
  rw [if_pos hguard]
  dsimp only
  rw [hfind]
  dsimp only
  rw [hnameslice, hargstep]
  dsimp only
  rw [hadv]


/-- One iteration of the scanning loop on a well-formed defaulted entry:
the loop consumes `name: type = default` (and a following `", "` if more
text follows) and records the entry with its default. -/
theorem processArgs_step_some (pre n t v tail : List Char) (fuel : Nat)
    (ns ts : List (List Char)) (ds : List (Option (List Char)))
    (hn : n.all isWordChar = true) (hne : n ≠ [])
    (ht : tokenOk [',', ' '] t = true)
    (hv : tokenOk [',', ' '] v = true)
    (htail : tail = [] ∨ ∃ rest, tail = ',' :: ' ' :: rest) :
    processArgs (pre ++ entryStr (n, t, some v) ++ tail) (fuel + 1) pre.length
        ns ts ds =
      processArgs (pre ++ entryStr (n, t, some v) ++ tail) fuel
        (pre.length + n.length + 2 + t.length + 3 + v.length +
          (if tail = [] then 0 else 2))
        (ns ++ [n]) (ts ++ [t]) (ds ++ [some v]) := by
  have hnlen : 1 ≤ n.length := by
    cases n with
    | nil => exact absurd rfl hne
    | cons a l => simp
  have hE : entryStr (n, t, some v) = n ++ ':' :: ' ' :: (t ++ ' ' :: '=' :: ' ' :: v) := by
    simp [entryStr]
  have hAlen : (pre ++ entryStr (n, t, some v) ++ tail).length =
      pre.length + n.length + 2 + t.length + 3 + v.length + tail.length := by
    rw [hE]
    simp only [List.length_append, List.length_cons]
    omega
  have hguard : pre.length < (pre ++ entryStr (n, t, some v) ++ tail).length := by
    rw [hAlen]; omega
  have hfind : pyFind (pre ++ entryStr (n, t, some v) ++ tail) ((": ").toList)
      pre.length = some (pre.length + n.length) := by
    rw [show pre ++ entryStr (n, t, some v) ++ tail =
      pre ++ (n ++ ':' :: ' ' :: (t ++ ' ' :: '=' :: ' ' :: (v ++ tail)))
      from by rw [hE]; simp]
    rw [pyFind_append, findOcc_colonSpace _ _ hn]
    rfl
  have hnameslice : pySlice (pre ++ entryStr (n, t, some v) ++ tail) pre.length
      (pre.length + n.length) = n := by
    rw [show pre ++ entryStr (n, t, some v) ++ tail =
      pre ++ n ++ (':' :: ' ' :: (t ++ ' ' :: '=' :: ' ' :: (v ++ tail)))
      from by rw [hE]; simp]
    exact pySlice_mid pre n _
  have hdrop : (pre ++ entryStr (n, t, some v) ++ tail).drop
      (pre.length + n.length + 2) = t ++ (' ' :: '=' :: ' ' :: (v ++ tail)) := by
    rw [show pre ++ entryStr (n, t, some v) ++ tail =
      (pre ++ n ++ (':' :: ' ' :: [])) ++ (t ++ (' ' :: '=' :: ' ' :: (v ++ tail)))
      from by rw [hE]; simp]
    rw [show pre.length + n.length + 2 =
      (pre ++ n ++ (':' :: ' ' :: [])).length from by
        simp only [List.length_append, List.length_cons, List.length_nil]]
    exact List.drop_left _ _
  have hfeot : findEndOfToken (pre ++ entryStr (n, t, some v) ++ tail)
      (pre.length + n.length + 2) [',', ' '] =
      pre.length + n.length + 2 + t.length := by
    refine findEndOfToken_token _ _ t (' ' :: '=' :: ' ' :: (v ++ tail)) _ hdrop
      (tokScan_of_tokenOk t ht) ?_
    exact Or.inr ⟨' ', '=' :: ' ' :: (v ++ tail), rfl, by decide, by decide, by decide⟩
  have htypeslice : pySlice (pre ++ entryStr (n, t, some v) ++ tail)
      (pre.length + n.length + 2) (pre.length + n.length + 2 + t.length) = t := by
    rw [show pre ++ entryStr (n, t, some v) ++ tail =
      (pre ++ n ++ (':' :: ' ' :: [])) ++ t ++ (' ' :: '=' :: ' ' :: (v ++ tail))
      from by rw [hE]; simp]
    rw [show pre.length + n.length + 2 =
      (pre ++ n ++ (':' :: ' ' :: [])).length from by
        simp only [List.length_append, List.length_cons, List.length_nil]]
    exact pySlice_mid _ t _
  have heqslice : pySlice (pre ++ entryStr (n, t, some v) ++ tail)
      (pre.length + n.length + 2 + t.length)
      (pre.length + n.length + 2 + t.length + 3) = ((" = ").toList) := by
    rw [show pre ++ entryStr (n, t, some v) ++ tail =
      (pre ++ n ++ (':' :: ' ' :: []) ++ t) ++ (' ' :: '=' :: ' ' :: (v ++ tail))
      from by rw [hE]; simp]
    rw [show pre.length + n.length + 2 + t.length =
      (pre ++ n ++ (':' :: ' ' :: []) ++ t).length from by
        simp only [List.length_append, List.length_cons, List.length_nil]]
    rw [pySlice_take]
    rfl
  have hdrop2 : (pre ++ entryStr (n, t, some v) ++ tail).drop
      (pre.length + n.length + 2 + t.length + 3) = v ++ tail := by
    rw [show pre ++ entryStr (n, t, some v) ++ tail =
      (pre ++ n ++ (':' :: ' ' :: []) ++ t ++ (' ' :: '=' :: ' ' :: [])) ++ (v ++ tail)
      from by rw [hE]; simp]
    rw [show pre.length + n.length + 2 + t.length + 3 =
      (pre ++ n ++ (':' :: ' ' :: []) ++ t ++ (' ' :: '=' :: ' ' :: [])).length from by
        simp only [List.length_append, List.length_cons, List.length_nil]]
    exact List.drop_left _ _
  have hfeot2 : findEndOfToken (pre ++ entryStr (n, t, some v) ++ tail)
      (pre.length + n.length + 2 + t.length + 3) [','] =
      pre.length + n.length + 2 + t.length + 3 + v.length := by
    refine findEndOfToken_token _ _ v tail _ hdrop2
      (tokScan_comma_of_tokenOk v hv) ?_
    rcases htail with htail | ⟨rest, htail⟩
    · exact Or.inl htail
    · exact Or.inr ⟨',', ' ' :: rest, htail, by decide, by decide, by decide⟩
  have hdefslice : pySlice (pre ++ entryStr (n, t, some v) ++ tail)
      (pre.length + n.length + 2 + t.length + 3)
      (pre.length + n.length + 2 + t.length + 3 + v.length) = v := by
    rw [show pre ++ entryStr (n, t, some v) ++ tail =
      (pre ++ n ++ (':' :: ' ' :: []) ++ t ++ (' ' :: '=' :: ' ' :: [])) ++ v ++ tail
      from by rw [hE]; simp]
    rw [show pre.length + n.length + 2 + t.length + 3 =
      (pre ++ n ++ (':' :: ' ' :: []) ++ t ++ (' ' :: '=' :: ' ' :: [])).length from by
        simp only [List.length_append, List.length_cons, List.length_nil]]
    exact pySlice_mid _ v _
  have hentrylen : pre.length + n.length + 2 + t.length + 3 + v.length =
      (pre ++ entryStr (n, t, some v)).length := by
    rw [hE]
    simp only [List.length_append, List.length_cons]
    omega
  have htailslice : ∀ k, pySlice (pre ++ entryStr (n, t, some v) ++ tail)
      (pre.length + n.length + 2 + t.length + 3 + v.length)
      (pre.length + n.length + 2 + t.length + 3 + v.length + k) = tail.take k := by
    intro k
    rw [show pre ++ entryStr (n, t, some v) ++ tail =
      (pre ++ entryStr (n, t, some v)) ++ tail from by simp]
    rw [hentrylen]
    exact pySlice_take _ tail k
  have hargstep : argStep (pre ++ entryStr (n, t, some v) ++ tail)
      (pre.length + n.length + 2) =
      (t, some v, pre.length + n.length + 2 + t.length + 3 + v.length) := by
    have hcond : (decide (pre.length + n.length + 2 + t.length + 2 <
        (pre ++ entryStr (n, t, some v) ++ tail).length) &&
        decide (pySlice (pre ++ entryStr (n, t, some v) ++ tail)
          (pre.length + n.length + 2 + t.length)
          (pre.length + n.length + 2 + t.length + 3) = ((" = ").toList))) =
        true := by
      have h0 : decide (pre.length + n.length + 2 + t.length + 2 <
          (pre ++ entryStr (n, t, some v) ++ tail).length) = true := by
        simp only [decide_eq_true_eq]
        rw [hAlen]
        omega
      have h1 : decide (pySlice (pre ++ entryStr (n, t, some v) ++ tail)
          (pre.length + n.length + 2 + t.length)
          (pre.length + n.length + 2 + t.length + 3) = ((" = ").toList)) = true := by
        simp only [decide_eq_true_eq]
        exact heqslice
      rw [h0, h1, Bool.and_self]
    unfold argStep
    rw [hfeot]
    dsimp only
    rw [hcond, if_pos rfl, hfeot2, htypeslice, hdefslice]
  have hadv : advanceComma (pre ++ entryStr (n, t, some v) ++ tail)
      (pre.length + n.length + 2 + t.length + 3 + v.length) =
      pre.length + n.length + 2 + t.length + 3 + v.length +
        (if tail = [] then 0 else 2) := by
    unfold advanceComma
    rcases htail with htail | ⟨rest, htail⟩
    · have h1 : (decide (pre.length + n.length + 2 + t.length + 3 + v.length + 1 <
          (pre ++ entryStr (n, t, some v) ++ tail).length) &&
          decide (pySlice (pre ++ entryStr (n, t, some v) ++ tail)
            (pre.length + n.length + 2 + t.length + 3 + v.length)
            (pre.length + n.length + 2 + t.length + 3 + v.length + 2) =
            ((", ").toList))) = false := by
        have h0 : decide (pre.length + n.length + 2 + t.length + 3 + v.length + 1 <
            (pre ++ entryStr (n, t, some v) ++ tail).length) = false := by
          simp only [decide_eq_false_iff_not]
          rw [hAlen, htail]
          simp only [List.length_nil]
          omega
        rw [h0, Bool.false_and]
      rw [h1, if_neg Bool.false_ne_true, if_pos htail]
      omega
    · have h1 : (decide (pre.length + n.length + 2 + t.length + 3 + v.length + 1 <
          (pre ++ entryStr (n, t, some v) ++ tail).length) &&
          decide (pySlice (pre ++ entryStr (n, t, some v) ++ tail)
            (pre.length + n.length + 2 + t.length + 3 + v.length)
            (pre.length + n.length + 2 + t.length + 3 + v.length + 2) =
            ((", ").toList))) = true := by
        have h0 : decide (pre.length + n.length + 2 + t.length + 3 + v.length + 1 <
            (pre ++ entryStr (n, t, some v) ++ tail).length) = true := by
          simp only [decide_eq_true_eq]
          rw [hAlen, htail]
          simp only [List.length_cons]
          omega
        have h2 : decide (pySlice (pre ++ entryStr (n, t, some v) ++ tail)
            (pre.length + n.length + 2 + t.length + 3 + v.length)
            (pre.length + n.length + 2 + t.length + 3 + v.length + 2) =
            ((", ").toList)) = true := by
          simp only [decide_eq_true_eq]
          rw [htailslice 2, htail]
          rfl
        rw [h0, h2, Bool.and_self]
      rw [h1, if_pos rfl, if_neg (by rw [htail]; simp)]
  conv_lhs => unfold processArgs
  rw [if_pos hguard]
  dsimp only
  rw [hfind]
  dsimp only
  rw [hnameslice, hargstep]
  dsimp only
  rw [hadv]

/-- The scanning loop returns as soon as the index reaches the end of the
text, for any fuel. -/
theorem processArgs_exit (args : List Char) (fuel i : Nat)
    (ns ts : List (List Char)) (ds : List (Option (List Char)))
    (h : args.length ≤ i) : processArgs args fuel i ns ts ds = some (ns, ts, ds) := by
  unfold processArgs
  rw [if_neg (by omega)]

/-- The scanning loop of `processSignature`, run on a well-formed formatted
parameter list placed after any prefix, consumes the whole list and returns
exactly the formatted names, types and defaults in order. -/
theorem processArgs_format :
    ∀ (es : List ((List Char) × (List Char) × Option (List Char)))
      (pre : List Char) (fuel : Nat) (ns ts : List (List Char))
      (ds : List (Option (List Char))),
      wfEntries es = true → es.length ≤ fuel →
      processArgs (pre ++ entriesStr es) fuel pre.length ns ts ds =
        some (ns ++ es.map (fun e => e.1), ts ++ es.map (fun e => e.2.1),
          ds ++ es.map (fun e => e.2.2)) := by
  intro es
  induction es with
  | nil =>
    intro pre fuel ns ts ds _ _
    rw [show entriesStr [] = [] from rfl, List.append_nil]
    rw [processArgs_exit pre fuel pre.length ns ts ds (le_refl _)]
    simp
  | cons e es ih =>
    intro pre fuel ns ts ds hwf hfuel
    obtain ⟨n, t, d⟩ := e
    have hparts := wfEntry_parts (n, t, d) (by
      unfold wfEntries at hwf
      rw [List.all_cons, Bool.and_eq_true] at hwf
      exact hwf.1)
    have hwfes : wfEntries es = true := by
      unfold wfEntries at hwf ⊢
      rw [List.all_cons, Bool.and_eq_true] at hwf
      exact hwf.2
    have hn : n.all isWordChar = true := hparts.1.2
    have hne : n ≠ [] := by
      intro h
      subst h
      exact hparts.1.1 rfl
    have ht : tokenOk [',', ' '] t = true := hparts.2.1.1
    cases fuel with
    | zero =>
      simp only [List.length_cons] at hfuel
      omega
    | succ fuel' =>
      have hfuel' : es.length ≤ fuel' := by
        simp only [List.length_cons] at hfuel
        omega
      cases es with
      | nil =>
        rw [entriesStr_single]
        rw [show pre ++ entryStr (n, t, d) = pre ++ entryStr (n, t, d) ++ []
          from by simp]
        cases d with
        | none =>
          rw [processArgs_step_none pre n t [] fuel' ns ts ds hn hne ht
            (Or.inl rfl)]
          rw [if_pos rfl]
          rw [processArgs_exit _ fuel' _ _ _ _ (by
            rw [show entryStr (n, t, none) = n ++ ':' :: ' ' :: t
              from by simp [entryStr]]
            simp only [List.append_nil, List.length_append, List.length_cons]
            omega)]
          simp
        | some v =>
          have hv : tokenOk [',', ' '] v = true := (hparts.2.2 v rfl).1
          rw [processArgs_step_some pre n t v [] fuel' ns ts ds hn hne ht hv
            (Or.inl rfl)]
          rw [if_pos rfl]
          rw [processArgs_exit _ fuel' _ _ _ _ (by
            rw [show entryStr (n, t, some v) =
              n ++ ':' :: ' ' :: (t ++ ' ' :: '=' :: ' ' :: v)
              from by simp [entryStr]]
            simp only [List.append_nil, List.length_append, List.length_cons]
            omega)]
          simp
      | cons e' es'' =>
        rw [entriesStr_cons_cons]
        rw [show pre ++ (entryStr (n, t, d) ++ ((", ").toList) ++ entriesStr (e' :: es'')) =
          pre ++ entryStr (n, t, d) ++ (',' :: ' ' :: entriesStr (e' :: es''))
          from by simp]
        cases d with
        | none =>
          rw [processArgs_step_none pre n t (',' :: ' ' :: entriesStr (e' :: es''))
            fuel' ns ts ds hn hne ht (Or.inr ⟨entriesStr (e' :: es''), rfl⟩)]
          rw [if_neg (by simp)]
          rw [show pre ++ entryStr (n, t, none) ++ (',' :: ' ' :: entriesStr (e' :: es'')) =
            (pre ++ entryStr (n, t, none) ++ (',' :: ' ' :: [])) ++ entriesStr (e' :: es'')
            from by simp]
          rw [show pre.length + n.length + 2 + t.length + 2 =
            (pre ++ entryStr (n, t, none) ++ (',' :: ' ' :: [])).length from by
              rw [show entryStr (n, t, none) = n ++ ':' :: ' ' :: t
                from by simp [entryStr]]
              simp only [List.length_append, List.length_cons, List.length_nil]
              omega]
          rw [ih (pre ++ entryStr (n, t, none) ++ (',' :: ' ' :: []))
            fuel' (ns ++ [n]) (ts ++ [t]) (ds ++ [none]) hwfes hfuel']
          simp
        | some v =>
          have hv : tokenOk [',', ' '] v = true := (hparts.2.2 v rfl).1
          rw [processArgs_step_some pre n t v (',' :: ' ' :: entriesStr (e' :: es''))
            fuel' ns ts ds hn hne ht hv (Or.inr ⟨entriesStr (e' :: es''), rfl⟩)]
          rw [if_neg (by simp)]
          rw [show pre ++ entryStr (n, t, some v) ++ (',' :: ' ' :: entriesStr (e' :: es'')) =
            (pre ++ entryStr (n, t, some v) ++ (',' :: ' ' :: [])) ++ entriesStr (e' :: es'')
            from by simp]
          rw [show pre.length + n.length + 2 + t.length + 3 + v.length + 2 =
            (pre ++ entryStr (n, t, some v) ++ (',' :: ' ' :: [])).length from by
              rw [show entryStr (n, t, some v) =
                n ++ ':' :: ' ' :: (t ++ ' ' :: '=' :: ' ' :: v)
                from by simp [entryStr]]
              simp only [List.length_append, List.length_cons, List.length_nil]
              omega]
          rw [ih (pre ++ entryStr (n, t, some v) ++ (',' :: ' ' :: []))
            fuel' (ns ++ [n]) (ts ++ [t]) (ds ++ [some v]) hwfes hfuel']
          simp

/-- C4: the claim as amended.  Parsing is a left inverse of formatting on
well-formed lines: for a word function name, entries whose names are nonempty
words and whose types and defaults are newline-free, bracket-balanced and
contain no `,`/`' '` at bracket depth zero, and a nonempty newline-free
return type not containing `") -> "`, `processSignature` returns exactly the
formatted name, argument names, types, defaults and return type (with fuel
at least the number of entries for the scanning loop). -/
theorem processSignature_roundtrip (fname ret : List Char)
    (es : List ((List Char) × (List Char) × Option (List Char))) (fuel : Nat)
    (hname : wfName fname = true) (hes : wfEntries es = true)
    (hret : wfRet ret = true) (hfuel : es.length ≤ fuel) :
    processSignatureFuel fuel (formatSigLine fname es ret) =
      .ok fname (es.map (fun e => e.1)) (es.map (fun e => e.2.1))
        (es.map (fun e => e.2.2)) ret := by
  unfold processSignatureFuel
  rw [pyRegexSig_format fname ret es hname hes hret]
  dsimp only
  have h := processArgs_format es [] fuel [] [] [] hes hfuel
  simp only [List.nil_append, List.length_nil] at h
  rw [h]

/-- The round-trip theorem applied to the spec's Scenario 1 signature. -/
theorem processSignature_roundtrip_witness :
    processSignatureFuel 2
        (("move(speed: float, heading: float = 0.0) -> None").toList) =
      .ok (("move").toList) [(("speed").toList), (("heading").toList)]
        [(("float").toList), (("float").toList)]
        [none, some (("0.0").toList)] (("None").toList) := by
  have h := processSignature_roundtrip (("move").toList) (("None").toList)
    [((("speed").toList), (("float").toList), none),
     ((("heading").toList), (("float").toList), some ((("0.0").toList)))] 2
    (by decide) (by decide) (by decide) (by decide)
  rw [show (("move(speed: float, heading: float = 0.0) -> None").toList) =
    formatSigLine (("move").toList)
      [((("speed").toList), (("float").toList), none),
       ((("heading").toList), (("float").toList), some ((("0.0").toList)))]
      (("None").toList) from by decide]
  rw [h]
  simp

/-- C4 counterexample to the claim as frozen: the type span `tuple[` has no
comma or space at bracket depth zero, yet the line
`a(x: tuple[, y: int) -> r` formatted from the entries `x: tuple[` and
`y: int` never parses back to those entries for any fuel — the unbalanced
`[` makes `_findEndOfToken` treat the following `", "` as nested, so the
whole remainder `tuple[, y: int` becomes the single first argument type. -/
theorem processSignature_roundtrip_cx :
    specDepthZeroClean 0 (("tuple[").toList) = true ∧
    (∀ fuel, processSignatureFuel fuel
        (formatSigLine (("a").toList)
          [((("x").toList), (("tuple[").toList), none),
           ((("y").toList), (("int").toList), none)] (("r").toList)) ≠
      .ok (("a").toList) [(("x").toList), (("y").toList)]
        [(("tuple[").toList), (("int").toList)] [none, none]
        (("r").toList)) := by
  refine ⟨by decide, ?_⟩
  intro fuel
  rw [show formatSigLine (("a").toList)
      [((("x").toList), (("tuple[").toList), none),
       ((("y").toList), (("int").toList), none)] (("r").toList) =
      (("a(x: tuple[, y: int) -> r").toList) from by decide]
  cases fuel with
  | zero => decide
  | succ f =>
    have h1 : processArgs (("x: tuple[, y: int").toList) (f + 1) 0 [] [] [] =
        some ([(("x").toList)], [(("tuple[, y: int").toList)], [none]) := by
      conv_lhs => unfold processArgs
      rw [if_pos (by decide)]
      dsimp only
      rw [show pyFind (("x: tuple[, y: int").toList) ((": ").toList) 0 =
        some 1 from rfl]
      dsimp only
      rw [show argStep (("x: tuple[, y: int").toList) (1 + 2) =
        ((("tuple[, y: int").toList), none, 17) from rfl]
      dsimp only
      rw [show advanceComma (("x: tuple[, y: int").toList) 17 = 17 from rfl]
      rw [show pySlice (("x: tuple[, y: int").toList) 0 1 = (("x").toList)
        from rfl]
      exact processArgs_exit _ f 17 _ _ _ (by decide)
    unfold processSignatureFuel
    rw [show pyRegexSig (("a(x: tuple[, y: int) -> r").toList) =
      some ((("a").toList), (("x: tuple[, y: int").toList), (("r").toList))
      from by decide]
    dsimp only
    rw [h1]
    dsimp only
    decide

end MrcTools
